import Mathlib

/-!
Verification of the usid library (paraglidehq/usid): 64-bit microsecond
time-ordered identifiers.

Shallow embedding conventions:
* Go `int64` values are modelled as `Int`, constrained to `[-2^63, 2^63)`
  where a theorem needs the machine range; Go `uint64` values (bit patterns)
  are modelled as `Nat`, reduced `% 2^64` wherever Go arithmetic wraps.
* `u64ofInt x` is the 64-bit two's-complement bit pattern of the int64 `x`;
  `i64ofNat n` reinterprets a 64-bit pattern as an int64.  These model Go's
  `uint64(x)` and `int64(n)` conversions.
* Go's `>>` on a nonnegative-or-negative int64 is an arithmetic shift,
  i.e. floor division by `2^k`; it is modelled by `sar64` via `Int.fdiv`.
* Fallible Go functions returning `(T, error)` are modelled as `Option`:
  `none` is "non-nil error returned" (the zero value Go also returns along
  with the error carries no information).
* Strings are processed as their `List Char`; all alphabets involved are
  ASCII, where Go's byte-wise iteration coincides with char-wise iteration
  (a non-ASCII char decodes to bytes ≥ 128, which every decoder rejects,
  exactly as the models do by rejecting the char itself).
-/

set_option maxRecDepth 4000

namespace USID

/-- Bit pattern (as a `Nat < 2^64`) of an int64, i.e. Go's `uint64(x)`. -/
def u64ofInt (x : Int) : Nat := (x % (2 ^ 64 : Int)).toNat

/-- Reinterpret a 64-bit pattern as an int64, i.e. Go's `int64(n)`. -/
def i64ofNat (n : Nat) : Int :=
  if n % 2 ^ 64 < 2 ^ 63 then ((n % 2 ^ 64 : Nat) : Int)
  else ((n % 2 ^ 64 : Nat) : Int) - 2 ^ 64

/-- Go's arithmetic right shift on int64: floor division by `2^k`. -/
def sar64 (x : Int) (k : Nat) : Int := Int.fdiv x (2 ^ k)

theorem u64ofInt_lt (x : Int) : u64ofInt x < 2 ^ 64 := by
  unfold u64ofInt
  omega

theorem i64ofNat_u64ofInt {x : Int} (h0 : -2 ^ 63 ≤ x) (h1 : x < 2 ^ 63) :
    i64ofNat (u64ofInt x) = x := by
  unfold i64ofNat u64ofInt
  split <;> omega

theorem u64ofInt_i64ofNat {n : Nat} (h : n < 2 ^ 64) :
    u64ofInt (i64ofNat n) = n := by
  unfold i64ofNat u64ofInt
  split <;> omega

theorem u64ofInt_ofNat {x : Int} (h0 : 0 ≤ x) (h1 : x < 2 ^ 64) :
    u64ofInt x = x.toNat := by
  unfold u64ofInt
  omega

theorem i64ofNat_small {n : Nat} (h : n < 2 ^ 63) : i64ofNat n = (n : Int) := by
  unfold i64ofNat
  split <;> omega

theorem sar64_ofNat (n : Nat) (k : Nat) : sar64 (n : Int) k = ((n / 2 ^ k : Nat) : Int) := by
  unfold sar64
  rw [Int.fdiv_eq_ediv _ (by positivity)]
  push_cast
  rfl

/-- OR of bit-disjoint naturals is addition. -/
theorem lor_eq_add {k a b : Nat} (ha : 2 ^ k ∣ a) (hb : b < 2 ^ k) :
    a ||| b = a + b := by
  obtain ⟨c, rfl⟩ := ha
  exact (Nat.mul_add_lt_is_or hb c).symm

theorem and_63 (n : Nat) : n &&& 63 = n % 64 := by
  simpa using Nat.and_pow_two_sub_one_eq_mod n 6

theorem and_31 (n : Nat) : n &&& 31 = n % 32 := by
  simpa using Nat.and_pow_two_sub_one_eq_mod n 5

theorem and_15 (n : Nat) : n &&& 15 = n % 16 := by
  simpa using Nat.and_pow_two_sub_one_eq_mod n 4

theorem and_3 (n : Nat) : n &&& 3 = n % 4 := by
  simpa using Nat.and_pow_two_sub_one_eq_mod n 2

/-!
Positional digit expansion, most-significant digit first.  This is what the
encoder loops of `crockford.Encode`, `base58.Encode`, `strconv.FormatInt`
and `strconv.FormatUint` produce: they repeatedly take `id % base`
(`id & 0x1f` for base 32) writing into a buffer from the right, so the
resulting string lists the digits most-significant first.
-/

theorem two_le_10 : (2 : Nat) ≤ 10 := by norm_num

theorem two_le_16 : (2 : Nat) ≤ 16 := by norm_num

theorem two_le_32 : (2 : Nat) ≤ 32 := by norm_num

theorem two_le_58 : (2 : Nat) ≤ 58 := by norm_num

def digitsBE (b : Nat) (hb : 2 ≤ b) : Nat → List Nat
  | 0 => []
  | n + 1 => digitsBE b hb ((n + 1) / b) ++ [(n + 1) % b]
decreasing_by exact Nat.div_lt_self (Nat.succ_pos n) hb

theorem digitsBE_lt (b : Nat) (hb : 2 ≤ b) :
    ∀ n, ∀ d ∈ digitsBE b hb n, d < b := by
  intro n
  induction n using Nat.strong_induction_on with
  | _ n ih =>
    match n with
    | 0 => intro d hd; simp [digitsBE] at hd
    | m + 1 =>
      intro d hd
      rw [digitsBE] at hd
      rcases List.mem_append.1 hd with h | h
      · exact ih ((m + 1) / b) (Nat.div_lt_self (Nat.succ_pos m) hb) d h
      · simp at h
        subst h
        exact Nat.mod_lt _ (by omega)

theorem digitsBE_ne_nil (b : Nat) (hb : 2 ≤ b) {n : Nat} (hn : 0 < n) :
    digitsBE b hb n ≠ [] := by
  match n with
  | m + 1 => rw [digitsBE]; simp

theorem digitsBE_foldl (b : Nat) (hb : 2 ≤ b) :
    ∀ n acc, List.foldl (fun a d => a * b + d) acc (digitsBE b hb n) =
      acc * b ^ (digitsBE b hb n).length + n := by
  intro n
  induction n using Nat.strong_induction_on with
  | _ n ih =>
    match n with
    | 0 => intro acc; simp [digitsBE]
    | m + 1 =>
      intro acc
      rw [digitsBE]
      rw [List.foldl_append]
      rw [ih ((m + 1) / b) (Nat.div_lt_self (Nat.succ_pos m) hb)]
      simp only [List.foldl_cons, List.foldl_nil, List.length_append,
        List.length_singleton]
      have hdm : b * ((m + 1) / b) + (m + 1) % b = m + 1 := Nat.div_add_mod _ _
      set L := (digitsBE b hb ((m + 1) / b)).length with hL
      rw [pow_succ]
      calc (acc * b ^ L + (m + 1) / b) * b + (m + 1) % b
          = acc * (b ^ L * b) + (b * ((m + 1) / b) + (m + 1) % b) := by ring
        _ = acc * (b ^ L * b) + (m + 1) := by rw [hdm]

theorem digitsBE_length_le (b : Nat) (hb : 2 ≤ b) :
    ∀ k n, n < b ^ k → (digitsBE b hb n).length ≤ k := by
  intro k
  induction k with
  | zero =>
    intro n hn
    have : n = 0 := by simpa using hn
    subst this
    simp [digitsBE]
  | succ k ihk =>
    intro n hn
    match n with
    | 0 => simp [digitsBE]
    | m + 1 =>
      rw [digitsBE]
      simp only [List.length_append, List.length_singleton]
      have : (m + 1) / b < b ^ k := by
        rw [Nat.div_lt_iff_lt_mul (by omega)]
        calc m + 1 < b ^ (k + 1) := hn
        _ = b ^ k * b := by rw [pow_succ]
      have := ihk _ this
      omega

/-! ### Process-wide configuration (`Epoch`, `NodeBits`, `SeqBits`,
`DefaultFormat` in generator.go and `DefaultObfuscator` in obfuscator.go).
The Go package keeps these in mutable globals, set once at startup; the
embedding passes them explicitly as one record. -/

/-- The `Format` string-encoding selector of usid.go. -/
inductive Format
  | crockford
  | base58
  | base64
  | hash
  | decimal
deriving DecidableEq, Repr

/-- The ambient package configuration: `Epoch`, `NodeBits`, `SeqBits`,
`DefaultFormat`, and the key of `DefaultObfuscator` (`none` when the
obfuscator is unset). -/
structure USIDConfig where
  epoch : Int
  nodeBits : Nat
  seqBits : Nat
  defaultFormat : Format
  obfuscator : Option Int
deriving DecidableEq, Repr

/-- The shipped defaults from generator.go / obfuscator.go. -/
def defaultConfig : USIDConfig :=
  { epoch := 1765947799213000
    nodeBits := 6
    seqBits := 6
    defaultFormat := Format.base58
    obfuscator := none }

/-! ### Obfuscator (obfuscator.go) -/

/-- int64 XOR, computed on bit patterns. -/
def xor64 (a b : Int) : Int := i64ofNat (u64ofInt a ^^^ u64ofInt b)

/-- `Obfuscator.Obfuscate`: XOR the ID with the key. -/
def Obfuscate (key id : Int) : Int := xor64 id key

/-- `Obfuscator.Deobfuscate`: identical to `Obfuscate` (XOR is self-inverse). -/
def Deobfuscate (key id : Int) : Int := xor64 id key

/-- Package-level `obfuscate`: applies `DefaultObfuscator` if set. -/
def obfuscate (cfg : USIDConfig) (id : Int) : Int :=
  match cfg.obfuscator with
  | some k => Obfuscate k id
  | none => id

/-- Package-level `deobfuscate`: reverses obfuscation if `DefaultObfuscator` is set. -/
def deobfuscate (cfg : USIDConfig) (id : Int) : Int :=
  match cfg.obfuscator with
  | some k => Deobfuscate k id
  | none => id

/-! ### Crockford Base32 codec (package crockford) -/

/-- The 32-symbol Crockford alphabet (excludes i, l, o, u). -/
def crockAlpha : List Char := "0123456789abcdefghjkmnpqrstvwxyz".data

/-- The `decode` table of package crockford, built in `init`: every alphabet
char maps to its index, uppercase letters map like their lowercase forms,
`I`/`i`/`L`/`l` map to 1 and `O`/`o` to 0, and every other byte holds -1
(modelled as `none`). -/
def crockDecodeChar (c : Char) : Option Nat :=
  if c = 'I' ∨ c = 'i' ∨ c = 'L' ∨ c = 'l' then some 1
  else if c = 'O' ∨ c = 'o' then some 0
  else
    let lc := if 'A' ≤ c ∧ c ≤ 'Z' then Char.ofNat (c.toNat + 32) else c
    crockAlpha.indexOf? lc

/-- `crockford.Encode`: `"0"` for zero, otherwise base-32 digits
most-significant first (the Go loop `buf[i] = encode[id&0x1f]; id >>= 5`
runs only while `id > 0`, so a negative input yields the empty string;
`Int.toNat` of a negative number is 0, giving the same empty digit list). -/
def crockEncode (id : Int) : String :=
  if id = 0 then "0"
  else String.mk ((digitsBE 32 two_le_32 id.toNat).map fun d => crockAlpha.getD d ' ')

/-- The loop of `crockford.Decode`: skip `-`, reject bytes ≥ 128 and
out-of-alphabet bytes, otherwise `id = (id << 5) | v` on int64, i.e.
`acc * 32` wrapped mod `2^64` then OR-ed with the digit on the bit pattern. -/
def crockDecodeAux : List Char → Nat → Option Nat
  | [], acc => some acc
  | c :: rest, acc =>
    if c = '-' then crockDecodeAux rest acc
    else if 128 ≤ c.toNat then none
    else
      match crockDecodeChar c with
      | none => none
      | some v => crockDecodeAux rest ((acc * 32) % 2 ^ 64 ||| v)

/-- `crockford.Decode`: fold the digits, then the accumulated uint64 pattern
is returned as an int64. -/
def crockDecode (s : String) : Option Int :=
  (crockDecodeAux s.data 0).map i64ofNat

/-! ### Base58 codec (package base58) -/

/-- The 58-symbol Bitcoin alphabet (excludes 0, O, I, l). -/
def b58Alpha : List Char :=
  "123456789ABCDEFGHJKLMNPQRSTUVWXYZabcdefghijkmnopqrstuvwxyz".data

/-- The `decode` table of package base58.  The Go table defaults to 0 and the
loop rejects `v == 0 && c != '1'`; since `'1'` is the only byte mapping to 0,
this is exactly "reject any byte not in the alphabet", i.e. `indexOf?`. -/
def b58DecodeChar (c : Char) : Option Nat := b58Alpha.indexOf? c

/-- `base58.Encode`: `"1"` for zero, otherwise base-58 digits
most-significant first; as in `crockEncode`, a negative input produces the
empty string because the Go loop body never runs. -/
def b58Encode (id : Int) : String :=
  if id = 0 then "1"
  else String.mk ((digitsBE 58 two_le_58 id.toNat).map fun d => b58Alpha.getD d ' ')

/-- The loop of `base58.Decode`: reject bytes ≥ 128 and out-of-alphabet
bytes, otherwise `id = id*58 + v` on int64 (wrap mod `2^64` on the pattern). -/
def b58DecodeAux : List Char → Nat → Option Nat
  | [], acc => some acc
  | c :: rest, acc =>
    if 128 ≤ c.toNat then none
    else
      match b58DecodeChar c with
      | none => none
      | some v => b58DecodeAux rest ((acc * 58 + v) % 2 ^ 64)

/-- `base58.Decode`. -/
def b58Decode (s : String) : Option Int :=
  (b58DecodeAux s.data 0).map i64ofNat

/-! ### Binary form (ID.Bytes / FromBytes in usid.go) -/

/-- Go's `byte(x)` conversion from int64: the low 8 bits of the pattern. -/
def byteOf (x : Int) : Nat := u64ofInt x % 256

/-- `ID.Bytes`: 8 bytes big-endian, `b[i] = byte(id >> (56 - 8*i))` with
arithmetic shifts. -/
def idBytes (id : Int) : List Nat :=
  [byteOf (sar64 id 56), byteOf (sar64 id 48), byteOf (sar64 id 40),
   byteOf (sar64 id 32), byteOf (sar64 id 24), byteOf (sar64 id 16),
   byteOf (sar64 id 8), byteOf id]

/-- `FromBytes`: errors unless given exactly 8 bytes, else reassembles
`int64(b[0])<<56 | ... | int64(b[7])` (an OR of disjoint byte fields on the
bit pattern, reinterpreted as int64). -/
def fromBytes (l : List Nat) : Option Int :=
  if h : l.length = 8 then
    some (i64ofNat
      ((l.get ⟨0, by omega⟩) <<< 56 ||| (l.get ⟨1, by omega⟩) <<< 48 |||
       (l.get ⟨2, by omega⟩) <<< 40 ||| (l.get ⟨3, by omega⟩) <<< 32 |||
       (l.get ⟨4, by omega⟩) <<< 24 ||| (l.get ⟨5, by omega⟩) <<< 16 |||
       (l.get ⟨6, by omega⟩) <<< 8 ||| (l.get ⟨7, by omega⟩)))
  else none

/-! ### Hex ("hash") codec (usid.go: Format hash case, ParseHash,
isHex, hexDecode; the digits come from strconv.FormatUint(x, 16)) -/

def hexAlpha : List Char := "0123456789abcdef".data

/-- `strconv.FormatUint(uint64(id), 16)`: lowercase hex digits of the
unsigned bit pattern, no leading zeros, `"0"` for zero. -/
def hexEncode (id : Int) : String :=
  if u64ofInt id = 0 then "0"
  else String.mk ((digitsBE 16 two_le_16 (u64ofInt id)).map fun d => hexAlpha.getD d ' ')

/-- The `isHex` character class of usid.go. -/
def isHexChar (c : Char) : Bool :=
  ('0' ≤ c ∧ c ≤ '9') ∨ ('a' ≤ c ∧ c ≤ 'f') ∨ ('A' ≤ c ∧ c ≤ 'F')

/-- Numeric value of a hex digit (only used on chars passing `isHexChar`). -/
def hexVal (c : Char) : Nat :=
  if '0' ≤ c ∧ c ≤ '9' then c.toNat - 48
  else if 'a' ≤ c ∧ c ≤ 'f' then c.toNat - 87
  else if 'A' ≤ c ∧ c ≤ 'F' then c.toNat - 55
  else 0

/-- `hexDecode` of usid.go: requires 1-16 hex chars, parses them via
`strconv.ParseUint(s, 16, 64)` (at most 16 hex digits never overflow
uint64), and spreads the value over 8 big-endian bytes. -/
def hexDecode (l : List Char) : Option (List Nat) :=
  if l.length = 0 ∨ 16 < l.length then none
  else if l.all isHexChar then
    let n := l.foldl (fun a c => a * 16 + hexVal c) 0
    some [n / 2 ^ 56 % 256, n / 2 ^ 48 % 256, n / 2 ^ 40 % 256, n / 2 ^ 32 % 256,
          n / 2 ^ 24 % 256, n / 2 ^ 16 % 256, n / 2 ^ 8 % 256, n % 256]
  else none

/-! ### Decimal codec (strconv.FormatInt / strconv.ParseInt, base 10) -/

def decAlpha : List Char := "0123456789".data

/-- `strconv.FormatInt(int64(id), 10)`. -/
def decEncode (x : Int) : String :=
  if x = 0 then "0"
  else if x < 0 then
    String.mk ('-' :: (digitsBE 10 two_le_10 (-x).toNat).map fun d => decAlpha.getD d ' ')
  else String.mk ((digitsBE 10 two_le_10 x.toNat).map fun d => decAlpha.getD d ' ')

def isDigit10 (c : Char) : Bool := '0' ≤ c ∧ c ≤ '9'

/-- `strconv.ParseInt(s, 10, 64)`: optional sign, then a nonempty run of
decimal digits, rejected when the value leaves the int64 range (Go returns
a range error together with a clamped value; the error is what matters). -/
def parseInt10 (l : List Char) : Option Int :=
  match l with
  | [] => none
  | c :: rest =>
    let neg : Bool := c = '-'
    let ds : List Char := if c = '-' ∨ c = '+' then rest else c :: rest
    if ds = [] then none
    else if ds.all isDigit10 then
      let v : Nat := ds.foldl (fun a ch => a * 10 + (ch.toNat - 48)) 0
      if neg then if v ≤ 2 ^ 63 then some (-(v : Int)) else none
      else if v < 2 ^ 63 then some (v : Int) else none
    else none

/-! ### Base64 codec (encoding/base64 StdEncoding over `ID.Bytes`) -/

def b64Alpha : List Char :=
  "ABCDEFGHIJKLMNOPQRSTUVWXYZabcdefghijklmnopqrstuvwxyz0123456789+/".data

def b64Char (n : Nat) : Char := b64Alpha.getD n ' '

/-- `base64.StdEncoding.EncodeToString`: 3 input bytes become 4 alphabet
chars; a 2-byte tail becomes 3 chars and one `=`, a 1-byte tail 2 chars and
two `=`. -/
def b64EncodeList : List Nat → List Char
  | b0 :: b1 :: b2 :: rest =>
    b64Char (b0 >>> 2) :: b64Char ((b0 &&& 3) <<< 4 ||| b1 >>> 4) ::
    b64Char ((b1 &&& 15) <<< 2 ||| b2 >>> 6) :: b64Char (b2 &&& 63) ::
    b64EncodeList rest
  | [b0, b1] =>
    [b64Char (b0 >>> 2), b64Char ((b0 &&& 3) <<< 4 ||| b1 >>> 4),
     b64Char ((b1 &&& 15) <<< 2), '=']
  | [b0] =>
    [b64Char (b0 >>> 2), b64Char ((b0 &&& 3) <<< 4), '=', '=']
  | [] => []

def b64DecodeChar (c : Char) : Option Nat := b64Alpha.indexOf? c

/-- `base64.StdEncoding.DecodeString`: the input must be a sequence of
4-char quanta; `=` may appear only as padding of the final quantum (one for
a 2-byte tail, two for a 1-byte tail); any char outside the alphabet is an
error.  StdEncoding does not insist that the unused trailing bits be zero,
and neither does this model (the padded branches ignore them). -/
def b64DecodeList : List Char → Option (List Nat)
  | [] => some []
  | c0 :: c1 :: c2 :: c3 :: rest =>
    match b64DecodeChar c0, b64DecodeChar c1 with
    | some v0, some v1 =>
      if c2 = '=' then
        if c3 = '=' ∧ rest = [] then some [v0 <<< 2 ||| v1 >>> 4]
        else none
      else
        match b64DecodeChar c2 with
        | some v2 =>
          if c3 = '=' then
            if rest = [] then
              some [v0 <<< 2 ||| v1 >>> 4, (v1 &&& 15) <<< 4 ||| v2 >>> 2]
            else none
          else
            match b64DecodeChar c3 with
            | some v3 =>
              (b64DecodeList rest).map fun bs =>
                (v0 <<< 2 ||| v1 >>> 4) :: ((v1 &&& 15) <<< 4 ||| v2 >>> 2) ::
                ((v2 &&& 3) <<< 6 ||| v3) :: bs
            | none => none
        | none => none
    | _, _ => none
  | _ => none

/-! ### ID string API (usid.go): Format and the Parse functions -/

/-- `ID.Format`: obfuscate, then dispatch on the format (the Go `switch`
sends any unknown format, and therefore the crockford default, to
`crockford.Encode`). -/
def format (cfg : USIDConfig) (f : Format) (id0 : Int) : String :=
  let id := obfuscate cfg id0
  match f with
  | Format.base58 => b58Encode id
  | Format.decimal => decEncode id
  | Format.base64 => String.mk (b64EncodeList (idBytes id))
  | Format.hash => hexEncode id
  | Format.crockford => crockEncode id

/-- `ID.String`: format with the default format. -/
def idToString (cfg : USIDConfig) (id : Int) : String :=
  format cfg cfg.defaultFormat id

/-- `ParseCrockford`. -/
def parseCrockford (cfg : USIDConfig) (s : String) : Option Int :=
  if s.length = 0 then none
  else
    match crockDecode s with
    | none => none
    | some n => some (deobfuscate cfg n)

/-- `ParseBase58`. -/
def parseBase58 (cfg : USIDConfig) (s : String) : Option Int :=
  if s.length = 0 then none
  else
    match b58Decode s with
    | none => none
    | some n => some (deobfuscate cfg n)

/-- `ParseBase64`: base64-decode, then `FromBytes`, then deobfuscate. -/
def parseBase64 (cfg : USIDConfig) (s : String) : Option Int :=
  if s.length = 0 then none
  else
    match b64DecodeList s.data with
    | none => none
    | some bytes =>
      match fromBytes bytes with
      | none => none
      | some id => some (deobfuscate cfg id)

/-- `ParseHash`: reject empty and non-hex strings, then `hexDecode`,
`FromBytes`, deobfuscate. -/
def parseHash (cfg : USIDConfig) (s : String) : Option Int :=
  if s.length = 0 then none
  else if ¬s.data.all isHexChar then none
  else
    match hexDecode s.data with
    | none => none
    | some bytes =>
      match fromBytes bytes with
      | none => none
      | some id => some (deobfuscate cfg id)

/-- `ParseDecimal`. -/
def parseDecimal (cfg : USIDConfig) (s : String) : Option Int :=
  if s.length = 0 then none
  else
    match parseInt10 s.data with
    | none => none
    | some n => some (deobfuscate cfg n)

/-- `Parse`: dispatch on `DefaultFormat` (unknown formats fall back to
crockford). -/
def parse (cfg : USIDConfig) (s : String) : Option Int :=
  match cfg.defaultFormat with
  | Format.base58 => parseBase58 cfg s
  | Format.decimal => parseDecimal cfg s
  | Format.base64 => parseBase64 cfg s
  | Format.hash => parseHash cfg s
  | Format.crockford => parseCrockford cfg s

/-! ### ID accessors (usid.go).  None of them consults `DefaultObfuscator`;
they read only the layout globals, which is why they take the whole config
record here. -/

/-- `ID.Int64`. -/
def idInt64 (_cfg : USIDConfig) (id : Int) : Int := id

/-- `ID.Bytes` as a method of the ambient configuration. -/
def idBytesM (_cfg : USIDConfig) (id : Int) : List Nat := idBytes id

/-- `ID.Timestamp`, as the microsecond count passed to `time.UnixMicro`:
`(int64(id) >> (SeqBits + NodeBits)) + Epoch`. -/
def Timestamp (cfg : USIDConfig) (id : Int) : Int :=
  sar64 id (cfg.seqBits + cfg.nodeBits) + cfg.epoch

/-- `ID.Node`: `(int64(id) >> SeqBits) & nodeMax` (int64 AND computed on
bit patterns; `nodeMax = 2^NodeBits - 1`). -/
def Node (cfg : USIDConfig) (id : Int) : Int :=
  i64ofNat (u64ofInt (sar64 id cfg.seqBits) &&& u64ofInt ((2 : Int) ^ cfg.nodeBits - 1))

/-- `ID.Seq`: `int64(id) & seqMask` (`seqMask = 2^SeqBits - 1`). -/
def Seq (cfg : USIDConfig) (id : Int) : Int :=
  i64ofNat (u64ofInt id &&& u64ofInt ((2 : Int) ^ cfg.seqBits - 1))

/-! ### Generator (generator.go) -/

/-- The `Generator` struct: node id plus the shift/mask constants captured
at construction (the shared atomic `state` word is threaded explicitly). -/
structure Generator where
  node : Int
  seqMask : Int
  nodeShift : Nat
  timeShift : Nat
deriving DecidableEq, Repr

/-- `NewGenerator`: panics (modelled `none`) when the node id is outside
`[0, 2^NodeBits - 1]`. -/
def NewGenerator (cfg : USIDConfig) (node : Int) : Option Generator :=
  let nodeMax : Int := 2 ^ cfg.nodeBits - 1
  if node < 0 ∨ nodeMax < node then none
  else some ⟨node, 2 ^ cfg.seqBits - 1, cfg.seqBits, cfg.seqBits + cfg.nodeBits⟩

/-- One iteration of the `Generate` retry loop, from the loaded state word
`old` (a uint64 bit pattern) and the sampled `now = UnixMicro - Epoch`:

* `oldTime = int64(old >> SeqBits)`, `oldSeq = int64(old & uint64(seqMask))`;
* `now > oldTime`: fresh microsecond bucket, `newTime = now`, `seq = 0`;
* otherwise `seq = oldSeq + 1`, and if `seq > seqMask` the iteration
  restarts without emitting (`none`); else `newTime = oldTime`;
* on success the word becomes `uint64(newTime<<SeqBits) | uint64(seq)` and
  the call returns `(newTime << timeShift) | (node << nodeShift) | seq`.

`some (w, id)` is an iteration whose compare-and-swap succeeds. -/
def genStep (cfg : USIDConfig) (g : Generator) (now : Int) (old : Nat) :
    Option (Nat × Int) :=
  let oldTime : Int := i64ofNat (old >>> cfg.seqBits)
  let oldSeq : Int := i64ofNat (old &&& u64ofInt g.seqMask)
  if oldTime < now then
    some (u64ofInt (now * 2 ^ cfg.seqBits) ||| u64ofInt 0,
      i64ofNat (u64ofInt (now * 2 ^ g.timeShift) |||
        u64ofInt (g.node * 2 ^ g.nodeShift) ||| u64ofInt 0))
  else
    let seq := oldSeq + 1
    if g.seqMask < seq then none
    else
      some (u64ofInt (oldTime * 2 ^ cfg.seqBits) ||| u64ofInt seq,
        i64ofNat (u64ofInt (oldTime * 2 ^ g.timeShift) |||
          u64ofInt (g.node * 2 ^ g.nodeShift) ||| u64ofInt seq))

/-- A sequential execution of the `Generate` loop: each list element is one
read of the clock; an iteration whose sequence space is exhausted emits
nothing and the loop continues with the next clock read, otherwise the
compare-and-swap installs the new word and the call completes.  The result
collects, in completion order, each successful step's installed state word
and returned identifier. -/
def genRun (cfg : USIDConfig) (g : Generator) : List Int → Nat → List (Nat × Int)
  | [], _ => []
  | now :: rest, w =>
    match genStep cfg g now w with
    | none => genRun cfg g rest w
    | some (w2, id) => (w2, id) :: genRun cfg g rest w2

/-! ### JSON (ID.UnmarshalJSON) and SQL scanning (ID.Scan, NullID.Scan) -/

/-- `ID.UnmarshalJSON`: the literal `null` sets the Nil sentinel; a payload
not starting with a quote is parsed as a base-10 integer and deobfuscated;
otherwise the payload must be wrapped in quotes and the interior goes
through `UnmarshalText`, i.e. `Parse`. -/
def unmarshalJSON (cfg : USIDConfig) (l : List Char) : Option Int :=
  if l = "null".data then some 0
  else
    match l with
    | [] => none
    | c :: _ =>
      if c ≠ '"' then
        match parseInt10 l with
        | none => none
        | some n => some (deobfuscate cfg n)
      else if l.length < 2 ∨ l.getLast? ≠ some '"' then none
      else parse cfg (String.mk ((l.drop 1).dropLast))

/-- The source types `ID.Scan` can receive from database/sql. -/
inductive SqlSrc
  | null
  | id (n : Int)
  | i64 (n : Int)
  | bytes (l : List Char)
  | str (l : List Char)
  | other (tyName : String)
deriving DecidableEq, Repr

/-- `ID.Scan`: nil maps to Nil, `ID`/`int64` are taken as-is, `[]byte` and
`string` go through `UnmarshalText` (= `Parse`), anything else is a
"cannot scan" error. -/
def idScan (cfg : USIDConfig) (src : SqlSrc) : Option Int :=
  match src with
  | SqlSrc.null => some 0
  | SqlSrc.id n => some n
  | SqlSrc.i64 n => some n
  | SqlSrc.bytes l => parse cfg (String.mk l)
  | SqlSrc.str l => parse cfg (String.mk l)
  | SqlSrc.other _ => none

/-- The `NullID` nullable wrapper. -/
structure NullID where
  id : Int
  valid : Bool
deriving DecidableEq, Repr

/-- `NullID.Scan`: a nil source resets to (Nil, false); otherwise it sets
`n.Valid = true` FIRST and then delegates to `ID.Scan`, whose error (if
any) is returned with the receiver left as the delegate left it (the inner
ID is only written on success).  Result: (new receiver state, ok?). -/
def nullScan (cfg : USIDConfig) (n : NullID) (src : SqlSrc) : NullID × Bool :=
  match src with
  | SqlSrc.null => (⟨0, false⟩, true)
  | _ =>
    match idScan cfg src with
    | some v => (⟨v, true⟩, true)
    | none => (⟨n.id, true⟩, false)

/-! ## Claims -/

/-! ### Codec round-trip machinery -/

/-- Each Crockford digit's character decodes back to the digit, is not the
separator `-`, and is ASCII. -/
theorem crockAlpha_spec : ∀ d, d < 32 →
    crockDecodeChar (crockAlpha.getD d ' ') = some d ∧
    crockAlpha.getD d ' ' ≠ '-' ∧ (crockAlpha.getD d ' ').toNat < 128 := by decide

/-- Each base58 digit's character decodes back to the digit and is ASCII. -/
theorem b58Alpha_spec : ∀ d, d < 58 →
    b58DecodeChar (b58Alpha.getD d ' ') = some d ∧
    (b58Alpha.getD d ' ').toNat < 128 := by decide

theorem crockDecodeAux_append (l1 l2 : List Char) (acc : Nat) :
    crockDecodeAux (l1 ++ l2) acc =
      (crockDecodeAux l1 acc).bind fun a => crockDecodeAux l2 a := by
  induction l1 generalizing acc with
  | nil => simp [crockDecodeAux]
  | cons c rest ih =>
    by_cases hdash : c = '-'
    · simp [crockDecodeAux, hdash, ih]
    · by_cases hbig : 128 ≤ c.toNat
      · simp [crockDecodeAux, hdash, hbig]
      · cases hc : crockDecodeChar c with
        | none => simp [crockDecodeAux, hdash, hbig, hc]
        | some v => simp [crockDecodeAux, hdash, hbig, hc, ih]

theorem crockDecodeAux_single (c : Char) (acc v : Nat) (hdash : c ≠ '-')
    (hascii : c.toNat < 128) (hdec : crockDecodeChar c = some v) :
    crockDecodeAux [c] acc = some (acc * 32 % 2 ^ 64 ||| v) := by
  simp [crockDecodeAux, hdash, hdec, show ¬128 ≤ c.toNat by omega]

theorem b58DecodeAux_append (l1 l2 : List Char) (acc : Nat) :
    b58DecodeAux (l1 ++ l2) acc =
      (b58DecodeAux l1 acc).bind fun a => b58DecodeAux l2 a := by
  induction l1 generalizing acc with
  | nil => simp [b58DecodeAux]
  | cons c rest ih =>
    by_cases hbig : 128 ≤ c.toNat
    · simp [b58DecodeAux, hbig]
    · cases hc : b58DecodeChar c with
      | none => simp [b58DecodeAux, hbig, hc]
      | some v => simp [b58DecodeAux, hbig, hc, ih]

theorem b58DecodeAux_single (c : Char) (acc v : Nat)
    (hascii : c.toNat < 128) (hdec : b58DecodeChar c = some v) :
    b58DecodeAux [c] acc = some ((acc * 58 + v) % 2 ^ 64) := by
  simp [b58DecodeAux, hdec, show ¬128 ≤ c.toNat by omega]

/-- The crockford decode loop inverts the digit expansion as long as the
value stays below `2^64` (so the int64 wrap never fires). -/
theorem crockDecodeAux_digits :
    ∀ n acc, acc * 32 ^ (digitsBE 32 two_le_32 n).length + n < 2 ^ 64 →
      crockDecodeAux ((digitsBE 32 two_le_32 n).map fun d => crockAlpha.getD d ' ') acc =
        some (acc * 32 ^ (digitsBE 32 two_le_32 n).length + n) := by
  intro n
  induction n using Nat.strong_induction_on with
  | _ n ih =>
    match n with
    | 0 =>
      intro acc _
      simp [digitsBE, crockDecodeAux]
    | m + 1 =>
      intro acc hacc
      have hstep : digitsBE 32 two_le_32 (m + 1) =
          digitsBE 32 two_le_32 ((m + 1) / 32) ++ [(m + 1) % 32] := by
        rw [digitsBE]
      rw [hstep] at hacc ⊢
      rw [List.map_append, crockDecodeAux_append]
      have hlen : (digitsBE 32 two_le_32 ((m + 1) / 32) ++ [(m + 1) % 32]).length =
          (digitsBE 32 two_le_32 ((m + 1) / 32)).length + 1 := by simp
      rw [hlen] at hacc ⊢
      set L := (digitsBE 32 two_le_32 ((m + 1) / 32)).length with hLdef
      have hdm : 32 * ((m + 1) / 32) + (m + 1) % 32 = m + 1 := Nat.div_add_mod _ _
      have hmono : acc * 32 ^ L ≤ acc * 32 ^ (L + 1) := by
        rw [pow_succ, ← Nat.mul_assoc]
        exact Nat.le_mul_of_pos_right _ (by norm_num)
      have hdivle : (m + 1) / 32 ≤ m + 1 := Nat.div_le_self _ _
      have hacc2 : acc * 32 ^ L + (m + 1) / 32 < 2 ^ 64 := by omega
      rw [ih ((m + 1) / 32) (Nat.div_lt_self (Nat.succ_pos m) two_le_32) acc hacc2]
      have hr := Nat.mod_lt (m + 1) (show 0 < 32 by norm_num)
      obtain ⟨hdec, hdash, hascii⟩ := crockAlpha_spec ((m + 1) % 32) hr
      rw [List.map_cons, List.map_nil, Option.some_bind,
        crockDecodeAux_single _ _ _ hdash hascii hdec]
      set A := acc * 32 ^ L + (m + 1) / 32 with hAdef
      have hA32 : A * 32 + (m + 1) % 32 = acc * 32 ^ (L + 1) + (m + 1) := by
        rw [pow_succ]
        calc A * 32 + (m + 1) % 32
            = acc * (32 ^ L * 32) + (32 * ((m + 1) / 32) + (m + 1) % 32) := by
              rw [hAdef]; ring
          _ = acc * (32 ^ L * 32) + (m + 1) := by rw [hdm]
      have hwrap : A * 32 < 2 ^ 64 := by omega
      rw [Nat.mod_eq_of_lt hwrap]
      have hor : A * 32 ||| (m + 1) % 32 = A * 32 + (m + 1) % 32 :=
        @lor_eq_add 5 (A * 32) ((m + 1) % 32) ⟨A, by ring⟩ hr
      rw [hor, hA32]

/-- The base58 decode loop inverts the digit expansion below `2^64`. -/
theorem b58DecodeAux_digits :
    ∀ n acc, acc * 58 ^ (digitsBE 58 two_le_58 n).length + n < 2 ^ 64 →
      b58DecodeAux ((digitsBE 58 two_le_58 n).map fun d => b58Alpha.getD d ' ') acc =
        some (acc * 58 ^ (digitsBE 58 two_le_58 n).length + n) := by
  intro n
  induction n using Nat.strong_induction_on with
  | _ n ih =>
    match n with
    | 0 =>
      intro acc _
      simp [digitsBE, b58DecodeAux]
    | m + 1 =>
      intro acc hacc
      have hstep : digitsBE 58 two_le_58 (m + 1) =
          digitsBE 58 two_le_58 ((m + 1) / 58) ++ [(m + 1) % 58] := by
        rw [digitsBE]
      rw [hstep] at hacc ⊢
      rw [List.map_append, b58DecodeAux_append]
      have hlen : (digitsBE 58 two_le_58 ((m + 1) / 58) ++ [(m + 1) % 58]).length =
          (digitsBE 58 two_le_58 ((m + 1) / 58)).length + 1 := by simp
      rw [hlen] at hacc ⊢
      set L := (digitsBE 58 two_le_58 ((m + 1) / 58)).length with hLdef
      have hdm : 58 * ((m + 1) / 58) + (m + 1) % 58 = m + 1 := Nat.div_add_mod _ _
      have hmono : acc * 58 ^ L ≤ acc * 58 ^ (L + 1) := by
        rw [pow_succ, ← Nat.mul_assoc]
        exact Nat.le_mul_of_pos_right _ (by norm_num)
      have hdivle : (m + 1) / 58 ≤ m + 1 := Nat.div_le_self _ _
      have hacc2 : acc * 58 ^ L + (m + 1) / 58 < 2 ^ 64 := by omega
      rw [ih ((m + 1) / 58) (Nat.div_lt_self (Nat.succ_pos m) two_le_58) acc hacc2]
      have hr := Nat.mod_lt (m + 1) (show 0 < 58 by norm_num)
      obtain ⟨hdec, hascii⟩ := b58Alpha_spec ((m + 1) % 58) hr
      rw [List.map_cons, List.map_nil, Option.some_bind,
        b58DecodeAux_single _ _ _ hascii hdec]
      set A := acc * 58 ^ L + (m + 1) / 58 with hAdef
      have hA58 : A * 58 + (m + 1) % 58 = acc * 58 ^ (L + 1) + (m + 1) := by
        rw [pow_succ]
        calc A * 58 + (m + 1) % 58
            = acc * (58 ^ L * 58) + (58 * ((m + 1) / 58) + (m + 1) % 58) := by
              rw [hAdef]; ring
          _ = acc * (58 ^ L * 58) + (m + 1) := by rw [hdm]
      have hwrap : A * 58 + (m + 1) % 58 < 2 ^ 64 := by omega
      rw [Nat.mod_eq_of_lt hwrap, hA58]

/-- Crockford codec round trip on nonnegative int64 values. -/
theorem crock_roundtrip (x : Int) (hx0 : 0 ≤ x) (hx1 : x < 2 ^ 63) :
    crockDecode (crockEncode x) = some x := by
  by_cases hz : x = 0
  · subst hz
    decide
  · unfold crockEncode crockDecode
    rw [if_neg hz]
    have hxn : x.toNat < 2 ^ 63 := by omega
    have hb : 0 * 32 ^ (digitsBE 32 two_le_32 x.toNat).length + x.toNat < 2 ^ 64 := by
      omega
    show ((crockDecodeAux ((digitsBE 32 two_le_32 x.toNat).map
      fun d => crockAlpha.getD d ' ') 0).map i64ofNat) = some x
    rw [crockDecodeAux_digits x.toNat 0 hb]
    simp only [Nat.zero_mul, Nat.zero_add, Option.map_some', i64ofNat_small hxn]
    congr 1
    omega

/-- Base58 codec round trip on nonnegative int64 values. -/
theorem b58_roundtrip (x : Int) (hx0 : 0 ≤ x) (hx1 : x < 2 ^ 63) :
    b58Decode (b58Encode x) = some x := by
  by_cases hz : x = 0
  · subst hz
    decide
  · unfold b58Encode b58Decode
    rw [if_neg hz]
    have hxn : x.toNat < 2 ^ 63 := by omega
    have hb : 0 * 58 ^ (digitsBE 58 two_le_58 x.toNat).length + x.toNat < 2 ^ 64 := by
      omega
    show ((b58DecodeAux ((digitsBE 58 two_le_58 x.toNat).map
      fun d => b58Alpha.getD d ' ') 0).map i64ofNat) = some x
    rw [b58DecodeAux_digits x.toNat 0 hb]
    simp only [Nat.zero_mul, Nat.zero_add, Option.map_some', i64ofNat_small hxn]
    congr 1
    omega

/-- OR with a left shift and a small right operand is positional addition;
this is the shape of every bit-packing expression in the sources. -/
theorem lor_sh {a b s : Nat} (hb : b < 2 ^ s) : a <<< s ||| b = a * 2 ^ s + b := by
  rw [Nat.shiftLeft_eq]
  exact lor_eq_add ⟨a, by ring⟩ hb

theorem fdiv_two_pow (x : Int) (k : Nat) : Int.fdiv x (2 ^ k) = x / 2 ^ k :=
  Int.fdiv_eq_ediv x (by positivity)

/-- The big-endian byte list `ID.Bytes` produces, written over the raw
uint64 pattern. -/
theorem idBytes_eq (id : Int) :
    idBytes id =
      [u64ofInt id / 2 ^ 56 % 256, u64ofInt id / 2 ^ 48 % 256,
       u64ofInt id / 2 ^ 40 % 256, u64ofInt id / 2 ^ 32 % 256,
       u64ofInt id / 2 ^ 24 % 256, u64ofInt id / 2 ^ 16 % 256,
       u64ofInt id / 2 ^ 8 % 256, u64ofInt id % 256] := by
  unfold idBytes byteOf sar64
  simp only [fdiv_two_pow]
  unfold u64ofInt
  norm_num [List.cons.injEq]
  omega

/-- Reassembling eight OR-ed byte fields is plain positional arithmetic. -/
theorem or8_eq (b0 b1 b2 b3 b4 b5 b6 b7 : Nat)
    (h0 : b0 < 256) (h1 : b1 < 256) (h2 : b2 < 256) (h3 : b3 < 256)
    (h4 : b4 < 256) (h5 : b5 < 256) (h6 : b6 < 256) (h7 : b7 < 256) :
    b0 <<< 56 ||| b1 <<< 48 ||| b2 <<< 40 ||| b3 <<< 32 |||
      b4 <<< 24 ||| b5 <<< 16 ||| b6 <<< 8 ||| b7 =
    b0 * 2 ^ 56 + b1 * 2 ^ 48 + b2 * 2 ^ 40 + b3 * 2 ^ 32 +
      b4 * 2 ^ 24 + b5 * 2 ^ 16 + b6 * 2 ^ 8 + b7 := by
  simp only [Nat.shiftLeft_eq]
  rw [@lor_eq_add 56 (b0 * 2 ^ 56) (b1 * 2 ^ 48) ⟨b0, by ring⟩ (by omega)]
  rw [@lor_eq_add 48 (b0 * 2 ^ 56 + b1 * 2 ^ 48) (b2 * 2 ^ 40)
    ⟨b0 * 2 ^ 8 + b1, by ring⟩ (by omega)]
  rw [@lor_eq_add 40 (b0 * 2 ^ 56 + b1 * 2 ^ 48 + b2 * 2 ^ 40) (b3 * 2 ^ 32)
    ⟨b0 * 2 ^ 16 + b1 * 2 ^ 8 + b2, by ring⟩ (by omega)]
  rw [@lor_eq_add 32 (b0 * 2 ^ 56 + b1 * 2 ^ 48 + b2 * 2 ^ 40 + b3 * 2 ^ 32)
    (b4 * 2 ^ 24) ⟨b0 * 2 ^ 24 + b1 * 2 ^ 16 + b2 * 2 ^ 8 + b3, by ring⟩ (by omega)]
  rw [@lor_eq_add 24
    (b0 * 2 ^ 56 + b1 * 2 ^ 48 + b2 * 2 ^ 40 + b3 * 2 ^ 32 + b4 * 2 ^ 24)
    (b5 * 2 ^ 16)
    ⟨b0 * 2 ^ 32 + b1 * 2 ^ 24 + b2 * 2 ^ 16 + b3 * 2 ^ 8 + b4, by ring⟩ (by omega)]
  rw [@lor_eq_add 16
    (b0 * 2 ^ 56 + b1 * 2 ^ 48 + b2 * 2 ^ 40 + b3 * 2 ^ 32 + b4 * 2 ^ 24 + b5 * 2 ^ 16)
    (b6 * 2 ^ 8)
    ⟨b0 * 2 ^ 40 + b1 * 2 ^ 32 + b2 * 2 ^ 24 + b3 * 2 ^ 16 + b4 * 2 ^ 8 + b5, by ring⟩
    (by omega)]
  rw [@lor_eq_add 8
    (b0 * 2 ^ 56 + b1 * 2 ^ 48 + b2 * 2 ^ 40 + b3 * 2 ^ 32 + b4 * 2 ^ 24 + b5 * 2 ^ 16 +
      b6 * 2 ^ 8)
    b7
    ⟨b0 * 2 ^ 48 + b1 * 2 ^ 40 + b2 * 2 ^ 32 + b3 * 2 ^ 24 + b4 * 2 ^ 16 + b5 * 2 ^ 8 + b6,
      by ring⟩
    h7]

/-- `FromBytes` applied to an explicit 8-byte list. -/
theorem fromBytes_cons (b0 b1 b2 b3 b4 b5 b6 b7 : Nat) :
    fromBytes [b0, b1, b2, b3, b4, b5, b6, b7] =
      some (i64ofNat (b0 <<< 56 ||| b1 <<< 48 ||| b2 <<< 40 ||| b3 <<< 32 |||
        b4 <<< 24 ||| b5 <<< 16 ||| b6 <<< 8 ||| b7)) := rfl

/-- Each decimal digit's character: its code point minus 48 is the digit,
it passes `isDigit10`, and it is none of the dispatch characters that the
sign handling or the JSON layer tests for. -/
theorem decAlpha_spec : ∀ d, d < 10 →
    (decAlpha.getD d ' ').toNat - 48 = d ∧ isDigit10 (decAlpha.getD d ' ') = true ∧
    decAlpha.getD d ' ' ≠ '-' ∧ decAlpha.getD d ' ' ≠ '+' ∧
    decAlpha.getD d ' ' ≠ '"' ∧ decAlpha.getD d ' ' ≠ 'n' := by decide

theorem decFold (l : List Nat) (hl : ∀ d ∈ l, d < 10) :
    ∀ acc, List.foldl (fun a ch => a * 10 + (ch.toNat - 48)) acc
        (l.map fun d => decAlpha.getD d ' ') =
      List.foldl (fun a d => a * 10 + d) acc l := by
  induction l with
  | nil => intro acc; rfl
  | cons d rest ih =>
    intro acc
    simp only [List.map_cons, List.foldl_cons]
    rw [(decAlpha_spec d (hl d (by simp))).1]
    exact ih (fun e he => hl e (by simp [he])) _

theorem decAlpha_all_digits (l : List Nat) (hl : ∀ d ∈ l, d < 10) :
    (l.map fun d => decAlpha.getD d ' ').all isDigit10 = true := by
  rw [List.all_eq_true]
  intro c hc
  obtain ⟨d, hd, rfl⟩ := List.mem_map.1 hc
  exact (decAlpha_spec d (hl d hd)).2.1

/-- Decimal codec round trip on nonnegative int64 values. -/
theorem dec_roundtrip (x : Int) (hx0 : 0 ≤ x) (hx1 : x < 2 ^ 63) :
    parseInt10 (decEncode x).data = some x := by
  by_cases hz : x = 0
  · subst hz
    decide
  · have hnn : 0 < x.toNat := by omega
    unfold decEncode
    rw [if_neg hz, if_neg (by omega : ¬x < 0)]
    obtain ⟨d0, l', hdl⟩ : ∃ d0 l', digitsBE 10 two_le_10 x.toNat = d0 :: l' := by
      cases hds : digitsBE 10 two_le_10 x.toNat with
      | nil => exact absurd hds (digitsBE_ne_nil 10 two_le_10 hnn)
      | cons a b => exact ⟨a, b, rfl⟩
    have hlt : ∀ d ∈ digitsBE 10 two_le_10 x.toNat, d < 10 :=
      digitsBE_lt 10 two_le_10 x.toNat
    have hd0 : d0 < 10 := hlt d0 (by rw [hdl]; simp)
    have hfold :
        List.foldl (fun a ch => a * 10 + (ch.toNat - 48)) 0
          ((digitsBE 10 two_le_10 x.toNat).map fun d => decAlpha.getD d ' ') = x.toNat := by
      rw [decFold _ hlt 0, digitsBE_foldl 10 two_le_10 x.toNat 0]
      omega
    have hall := decAlpha_all_digits _ hlt
    rw [hdl] at hfold hall ⊢
    have hspec := decAlpha_spec d0 hd0
    rw [List.map_cons] at hfold hall ⊢
    have hsign : ¬(decAlpha.getD d0 ' ' = '-' ∨ decAlpha.getD d0 ' ' = '+') := by
      push_neg
      exact ⟨hspec.2.2.1, hspec.2.2.2.1⟩
    have hneg : (decide (decAlpha.getD d0 ' ' = '-')) = false :=
      decide_eq_false hspec.2.2.1
    show parseInt10 (decAlpha.getD d0 ' ' :: l'.map fun d => decAlpha.getD d ' ') = some x
    simp only [parseInt10]
    rw [if_neg hsign]
    rw [if_neg (by simp : ¬(decAlpha.getD d0 ' ' :: l'.map fun d => decAlpha.getD d ' ') = [])]
    rw [if_pos hall, hfold, hneg]
    simp only [Bool.false_eq_true, if_false]
    rw [if_pos (by omega : x.toNat < 2 ^ 63)]
    congr 1
    omega

/-- Each hex digit's character passes `isHex` and `hexVal` inverts it. -/
theorem hexAlpha_spec : ∀ d, d < 16 →
    isHexChar (hexAlpha.getD d ' ') = true ∧ hexVal (hexAlpha.getD d ' ') = d := by decide

theorem hexFold (l : List Nat) (hl : ∀ d ∈ l, d < 16) :
    ∀ acc, List.foldl (fun a c => a * 16 + hexVal c) acc
        (l.map fun d => hexAlpha.getD d ' ') =
      List.foldl (fun a d => a * 16 + d) acc l := by
  induction l with
  | nil => intro acc; rfl
  | cons d rest ih =>
    intro acc
    simp only [List.map_cons, List.foldl_cons]
    rw [(hexAlpha_spec d (hl d (by simp))).2]
    exact ih (fun e he => hl e (by simp [he])) _

theorem hexAlpha_all_hex (l : List Nat) (hl : ∀ d ∈ l, d < 16) :
    (l.map fun d => hexAlpha.getD d ' ').all isHexChar = true := by
  rw [List.all_eq_true]
  intro c hc
  obtain ⟨d, hd, rfl⟩ := List.mem_map.1 hc
  exact (hexAlpha_spec d (hl d hd)).1

/-- `FromBytes` undoes the byte-spreading both `hexDecode` and `ID.Bytes`
perform on a uint64 value. -/
theorem fromBytes_bytesOfU64 (u : Nat) (hu : u < 2 ^ 64) :
    fromBytes [u / 2 ^ 56 % 256, u / 2 ^ 48 % 256, u / 2 ^ 40 % 256, u / 2 ^ 32 % 256,
      u / 2 ^ 24 % 256, u / 2 ^ 16 % 256, u / 2 ^ 8 % 256, u % 256] = some (i64ofNat u) := by
  rw [fromBytes_cons]
  rw [or8_eq _ _ _ _ _ _ _ _ (Nat.mod_lt _ (by norm_num)) (Nat.mod_lt _ (by norm_num))
    (Nat.mod_lt _ (by norm_num)) (Nat.mod_lt _ (by norm_num)) (Nat.mod_lt _ (by norm_num))
    (Nat.mod_lt _ (by norm_num)) (Nat.mod_lt _ (by norm_num)) (Nat.mod_lt _ (by norm_num))]
  have hsum : u / 2 ^ 56 % 256 * 2 ^ 56 + u / 2 ^ 48 % 256 * 2 ^ 48 +
      u / 2 ^ 40 % 256 * 2 ^ 40 + u / 2 ^ 32 % 256 * 2 ^ 32 + u / 2 ^ 24 % 256 * 2 ^ 24 +
      u / 2 ^ 16 % 256 * 2 ^ 16 + u / 2 ^ 8 % 256 * 2 ^ 8 + u % 256 = u := by omega
  rw [hsum]

/-- Hex codec round trip on nonnegative int64 values. -/
theorem hex_roundtrip (x : Int) (hx0 : 0 ≤ x) (hx1 : x < 2 ^ 63) :
    parseHash defaultConfig (hexEncode x) = some x := by
  by_cases hz : x = 0
  · subst hz
    decide
  · have hu : u64ofInt x = x.toNat := u64ofInt_ofNat hx0 (by omega)
    have hnn : 0 < x.toNat := by omega
    unfold hexEncode
    rw [hu, if_neg (by omega : ¬x.toNat = 0)]
    have hlt := digitsBE_lt 16 two_le_16 x.toNat
    have hlen16 : (digitsBE 16 two_le_16 x.toNat).length ≤ 16 :=
      digitsBE_length_le 16 two_le_16 16 x.toNat (by norm_num; omega)
    have hne : digitsBE 16 two_le_16 x.toNat ≠ [] := digitsBE_ne_nil 16 two_le_16 hnn
    have hlenpos : 0 < (digitsBE 16 two_le_16 x.toNat).length := List.length_pos.2 hne
    have hall := hexAlpha_all_hex _ hlt
    have hfold :
        List.foldl (fun a c => a * 16 + hexVal c) 0
          ((digitsBE 16 two_le_16 x.toNat).map fun d => hexAlpha.getD d ' ') = x.toNat := by
      rw [hexFold _ hlt 0, digitsBE_foldl 16 two_le_16 x.toNat 0]
      omega
    have hdec : hexDecode ((digitsBE 16 two_le_16 x.toNat).map fun d => hexAlpha.getD d ' ') =
        some [x.toNat / 2 ^ 56 % 256, x.toNat / 2 ^ 48 % 256, x.toNat / 2 ^ 40 % 256,
          x.toNat / 2 ^ 32 % 256, x.toNat / 2 ^ 24 % 256, x.toNat / 2 ^ 16 % 256,
          x.toNat / 2 ^ 8 % 256, x.toNat % 256] := by
      simp only [hexDecode]
      rw [if_neg (by simp only [List.length_map]; omega), if_pos hall, hfold]
    have hlen1 : ¬(String.mk ((digitsBE 16 two_le_16 x.toNat).map
        fun d => hexAlpha.getD d ' ')).length = 0 := by
      show ¬((digitsBE 16 two_le_16 x.toNat).map fun d => hexAlpha.getD d ' ').length = 0
      simp only [List.length_map]
      omega
    have hhex : ¬¬(String.mk ((digitsBE 16 two_le_16 x.toNat).map
        fun d => hexAlpha.getD d ' ')).data.all isHexChar = true := by
      show ¬¬((digitsBE 16 two_le_16 x.toNat).map fun d => hexAlpha.getD d ' ').all
        isHexChar = true
      exact not_not_intro hall
    unfold parseHash
    rw [if_neg hlen1, if_neg hhex]
    have hdata : (String.mk ((digitsBE 16 two_le_16 x.toNat).map
        fun d => hexAlpha.getD d ' ')).data =
        (digitsBE 16 two_le_16 x.toNat).map fun d => hexAlpha.getD d ' ' := rfl
    rw [hdata]
    simp only [hdec, fromBytes_bytesOfU64 x.toNat (by omega : x.toNat < 2 ^ 64),
      i64ofNat_small (show x.toNat < 2 ^ 63 by omega)]
    show some (deobfuscate defaultConfig ((x.toNat : Nat) : Int)) = some x
    simp only [deobfuscate, defaultConfig]
    congr 1
    omega

/-- The bytes round-trip, shared by the binary-form claim and the base64
codec claim. -/
theorem fromBytes_idBytes (id : Int) (h0 : -(2 ^ 63) ≤ id) (h1 : id < 2 ^ 63) :
    fromBytes (idBytes id) = some id := by
  rw [idBytes_eq id, fromBytes_bytesOfU64 _ (u64ofInt_lt id), i64ofNat_u64ofInt h0 h1]

/-- Each base64 value's character decodes back and is never the padding
char. -/
theorem b64Char_spec : ∀ v, v < 64 →
    b64DecodeChar (b64Char v) = some v ∧ b64Char v ≠ '=' := by decide

theorem b64_or_lt {y z : Nat} (hy : y < 64) (hz : z < 64) : y ||| z < 64 :=
  @Nat.or_lt_two_pow y z 6 hy hz

/-- Decoding the first char pair of a base64 quantum recovers the first
byte. -/
theorem b64_dec1 (a0 a1 : Nat) (h0 : a0 < 256) (h1 : a1 < 256) :
    (a0 >>> 2) <<< 2 ||| ((a0 &&& 3) <<< 4 ||| a1 >>> 4) >>> 4 = a0 := by
  simp only [Nat.shiftRight_eq_div_pow]
  rw [and_3]
  rw [lor_sh (show a1 / 2 ^ 4 < 2 ^ 4 by omega)]
  rw [lor_sh (show (a0 % 4 * 2 ^ 4 + a1 / 2 ^ 4) / 2 ^ 4 < 2 ^ 2 by omega)]
  omega

/-- Decoding the middle char pair of a full base64 quantum recovers the
second byte. -/
theorem b64_dec2 (a0 a1 a2 : Nat) (h0 : a0 < 256) (h1 : a1 < 256) (h2 : a2 < 256) :
    (((a0 &&& 3) <<< 4 ||| a1 >>> 4) &&& 15) <<< 4 |||
      ((a1 &&& 15) <<< 2 ||| a2 >>> 6) >>> 2 = a1 := by
  simp only [Nat.shiftRight_eq_div_pow]
  rw [and_3, and_15, and_15]
  rw [lor_sh (show a1 / 2 ^ 4 < 2 ^ 4 by omega)]
  rw [lor_sh (show a2 / 2 ^ 6 < 2 ^ 2 by omega)]
  rw [lor_sh (show (a1 % 16 * 2 ^ 2 + a2 / 2 ^ 6) / 2 ^ 2 < 2 ^ 4 by omega)]
  omega

/-- Decoding the last char pair of a full base64 quantum recovers the third
byte. -/
theorem b64_dec3 (a1 a2 : Nat) (h1 : a1 < 256) (h2 : a2 < 256) :
    (((a1 &&& 15) <<< 2 ||| a2 >>> 6) &&& 3) <<< 6 ||| (a2 &&& 63) = a2 := by
  simp only [Nat.shiftRight_eq_div_pow]
  rw [and_15, and_63]
  rw [lor_sh (show a2 / 2 ^ 6 < 2 ^ 2 by omega)]
  rw [and_3]
  rw [lor_sh (show a2 % 64 < 2 ^ 6 by omega)]
  omega

/-- Decoding the middle char pair of a padded 2-byte tail quantum recovers
the second byte. -/
theorem b64_dec2t (a0 a1 : Nat) (h0 : a0 < 256) (h1 : a1 < 256) :
    (((a0 &&& 3) <<< 4 ||| a1 >>> 4) &&& 15) <<< 4 ||| ((a1 &&& 15) <<< 2) >>> 2 = a1 := by
  rw [and_3, and_15, and_15]
  rw [lor_sh (show a1 >>> 4 < 2 ^ 4 by rw [Nat.shiftRight_eq_div_pow]; omega)]
  rw [lor_sh (show ((a1 % 16) <<< 2) >>> 2 < 2 ^ 4 by
    rw [Nat.shiftLeft_eq, Nat.shiftRight_eq_div_pow]; omega)]
  simp only [Nat.shiftLeft_eq, Nat.shiftRight_eq_div_pow]
  omega

/-- base64 round trip on an 8-byte buffer: two full quanta and one padded
2-byte tail. -/
theorem b64_parse8 (b0 b1 b2 b3 b4 b5 b6 b7 : Nat)
    (h0 : b0 < 256) (h1 : b1 < 256) (h2 : b2 < 256) (h3 : b3 < 256)
    (h4 : b4 < 256) (h5 : b5 < 256) (h6 : b6 < 256) (h7 : b7 < 256) :
    b64DecodeList (b64EncodeList [b0, b1, b2, b3, b4, b5, b6, b7]) =
      some [b0, b1, b2, b3, b4, b5, b6, b7] := by
  have sh2 : ∀ y : Nat, y < 256 → y >>> 2 < 64 := by
    intro y hy
    rw [Nat.shiftRight_eq_div_pow]
    omega
  have shA : ∀ y z : Nat, y < 256 → z < 256 → (y &&& 3) <<< 4 ||| z >>> 4 < 64 := by
    intro y z hy hz
    exact b64_or_lt (by rw [and_3, Nat.shiftLeft_eq]; omega)
      (by rw [Nat.shiftRight_eq_div_pow]; omega)
  have shB : ∀ y z : Nat, y < 256 → z < 256 → (y &&& 15) <<< 2 ||| z >>> 6 < 64 := by
    intro y z hy hz
    exact b64_or_lt (by rw [and_15, Nat.shiftLeft_eq]; omega)
      (by rw [Nat.shiftRight_eq_div_pow]; omega)
  have shC : ∀ y : Nat, y < 256 → y &&& 63 < 64 := by
    intro y hy
    rw [and_63]
    omega
  have shD : ∀ y : Nat, y < 256 → (y &&& 15) <<< 2 < 64 := by
    intro y hy
    rw [and_15, Nat.shiftLeft_eq]
    omega
  have henc : b64EncodeList [b0, b1, b2, b3, b4, b5, b6, b7] =
      [b64Char (b0 >>> 2), b64Char ((b0 &&& 3) <<< 4 ||| b1 >>> 4),
       b64Char ((b1 &&& 15) <<< 2 ||| b2 >>> 6), b64Char (b2 &&& 63),
       b64Char (b3 >>> 2), b64Char ((b3 &&& 3) <<< 4 ||| b4 >>> 4),
       b64Char ((b4 &&& 15) <<< 2 ||| b5 >>> 6), b64Char (b5 &&& 63),
       b64Char (b6 >>> 2), b64Char ((b6 &&& 3) <<< 4 ||| b7 >>> 4),
       b64Char ((b7 &&& 15) <<< 2), '='] := rfl
  rw [henc]
  simp only [b64DecodeList,
    (b64Char_spec _ (sh2 b0 h0)).1, (b64Char_spec _ (shA b0 b1 h0 h1)).1,
    (b64Char_spec _ (shB b1 b2 h1 h2)).1, (b64Char_spec _ (shC b2 h2)).1,
    (b64Char_spec _ (sh2 b3 h3)).1, (b64Char_spec _ (shA b3 b4 h3 h4)).1,
    (b64Char_spec _ (shB b4 b5 h4 h5)).1, (b64Char_spec _ (shC b5 h5)).1,
    (b64Char_spec _ (sh2 b6 h6)).1, (b64Char_spec _ (shA b6 b7 h6 h7)).1,
    (b64Char_spec _ (shD b7 h7)).1,
    (b64Char_spec _ (shB b1 b2 h1 h2)).2, (b64Char_spec _ (shC b2 h2)).2,
    (b64Char_spec _ (shB b4 b5 h4 h5)).2, (b64Char_spec _ (shC b5 h5)).2,
    (b64Char_spec _ (shD b7 h7)).2]
  simp only [if_false, reduceCtorEq, reduceIte, Option.map_some', Option.some.injEq,
    List.cons.injEq, and_true]
  exact ⟨b64_dec1 b0 b1 h0 h1, b64_dec2 b0 b1 b2 h0 h1 h2, b64_dec3 b1 b2 h1 h2,
    b64_dec1 b3 b4 h3 h4, b64_dec2 b3 b4 b5 h3 h4 h5, b64_dec3 b4 b5 h4 h5,
    b64_dec1 b6 b7 h6 h7, b64_dec2t b6 b7 h6 h7⟩

theorem byteOf_lt (y : Int) : byteOf y < 256 := Nat.mod_lt _ (by norm_num)

/-- base64 round trip through `ParseBase64` on nonnegative int64 values. -/
theorem b64_roundtrip (x : Int) (hx0 : 0 ≤ x) (hx1 : x < 2 ^ 63) :
    parseBase64 defaultConfig (String.mk (b64EncodeList (idBytes x))) = some x := by
  have hidb : idBytes x =
      [byteOf (sar64 x 56), byteOf (sar64 x 48), byteOf (sar64 x 40), byteOf (sar64 x 32),
       byteOf (sar64 x 24), byteOf (sar64 x 16), byteOf (sar64 x 8), byteOf x] := rfl
  have hdec8 := b64_parse8 (byteOf (sar64 x 56)) (byteOf (sar64 x 48)) (byteOf (sar64 x 40))
    (byteOf (sar64 x 32)) (byteOf (sar64 x 24)) (byteOf (sar64 x 16)) (byteOf (sar64 x 8))
    (byteOf x) (byteOf_lt _) (byteOf_lt _) (byteOf_lt _) (byteOf_lt _) (byteOf_lt _)
    (byteOf_lt _) (byteOf_lt _) (byteOf_lt _)
  have hfb : fromBytes [byteOf (sar64 x 56), byteOf (sar64 x 48), byteOf (sar64 x 40),
      byteOf (sar64 x 32), byteOf (sar64 x 24), byteOf (sar64 x 16), byteOf (sar64 x 8),
      byteOf x] = some x :=
    hidb ▸ fromBytes_idBytes x (by omega) hx1
  have hlen : ¬(String.mk (b64EncodeList (idBytes x))).length = 0 := by
    show ¬(b64EncodeList (idBytes x)).length = 0
    rw [hidb]
    simp [b64EncodeList]
  have hdata : (String.mk (b64EncodeList (idBytes x))).data = b64EncodeList (idBytes x) :=
    rfl
  unfold parseBase64
  rw [if_neg hlen, hdata, hidb]
  simp only [hdec8, hfb]
  simp [deobfuscate, defaultConfig]

theorem crockEncode_ne_empty (x : Int) (hx0 : 0 ≤ x) : ¬(crockEncode x).length = 0 := by
  by_cases hz : x = 0
  · subst hz; decide
  · unfold crockEncode
    rw [if_neg hz]
    show ¬((digitsBE 32 two_le_32 x.toNat).map fun d => crockAlpha.getD d ' ').length = 0
    simp only [List.length_map]
    have h1 := digitsBE_ne_nil 32 two_le_32 (show 0 < x.toNat by omega)
    have h2 := List.length_pos.2 h1
    omega

theorem b58Encode_ne_empty (x : Int) (hx0 : 0 ≤ x) : ¬(b58Encode x).length = 0 := by
  by_cases hz : x = 0
  · subst hz; decide
  · unfold b58Encode
    rw [if_neg hz]
    show ¬((digitsBE 58 two_le_58 x.toNat).map fun d => b58Alpha.getD d ' ').length = 0
    simp only [List.length_map]
    have h1 := digitsBE_ne_nil 58 two_le_58 (show 0 < x.toNat by omega)
    have h2 := List.length_pos.2 h1
    omega

theorem decEncode_ne_empty (x : Int) (hx0 : 0 ≤ x) : ¬(decEncode x).length = 0 := by
  by_cases hz : x = 0
  · subst hz; decide
  · unfold decEncode
    rw [if_neg hz, if_neg (by omega : ¬x < 0)]
    show ¬((digitsBE 10 two_le_10 x.toNat).map fun d => decAlpha.getD d ' ').length = 0
    simp only [List.length_map]
    have h1 := digitsBE_ne_nil 10 two_le_10 (show 0 < x.toNat by omega)
    have h2 := List.length_pos.2 h1
    omega

/-- C2: every format round-trips every nonnegative int64 value through
`Format` and the matching parser, and zero takes each format's special
case. -/
theorem C2_format_roundtrip :
    (∀ x : Int, 0 ≤ x → x < 2 ^ 63 →
      parseCrockford defaultConfig (format defaultConfig Format.crockford x) = some x ∧
      parseBase58 defaultConfig (format defaultConfig Format.base58 x) = some x ∧
      parseBase64 defaultConfig (format defaultConfig Format.base64 x) = some x ∧
      parseHash defaultConfig (format defaultConfig Format.hash x) = some x ∧
      parseDecimal defaultConfig (format defaultConfig Format.decimal x) = some x) ∧
    format defaultConfig Format.crockford 0 = "0" ∧
    format defaultConfig Format.base58 0 = "1" ∧
    format defaultConfig Format.hash 0 = "0" ∧
    format defaultConfig Format.decimal 0 = "0" ∧
    format defaultConfig Format.base64 0 = "AAAAAAAAAAA=" := by
  refine ⟨fun x hx0 hx1 => ⟨?_, ?_, ?_, ?_, ?_⟩,
    by decide, by decide, by decide, by decide, by decide⟩
  · show parseCrockford defaultConfig (crockEncode x) = some x
    unfold parseCrockford
    rw [if_neg (crockEncode_ne_empty x hx0)]
    simp only [crock_roundtrip x hx0 hx1]
    simp [deobfuscate, defaultConfig]
  · show parseBase58 defaultConfig (b58Encode x) = some x
    unfold parseBase58
    rw [if_neg (b58Encode_ne_empty x hx0)]
    simp only [b58_roundtrip x hx0 hx1]
    simp [deobfuscate, defaultConfig]
  · exact b64_roundtrip x hx0 hx1
  · exact hex_roundtrip x hx0 hx1
  · show parseDecimal defaultConfig (decEncode x) = some x
    unfold parseDecimal
    rw [if_neg (decEncode_ne_empty x hx0)]
    simp only [dec_roundtrip x hx0 hx1]
    simp [deobfuscate, defaultConfig]

/-- Witness for C2 at the concrete value 5. -/
theorem C2_witness :
    parseBase58 defaultConfig (format defaultConfig Format.base58 5) = some 5 ∧
    parseHash defaultConfig (format defaultConfig Format.hash 5) = some 5 :=
  ⟨(C2_format_roundtrip.1 5 (by decide) (by decide)).2.1,
   (C2_format_roundtrip.1 5 (by decide) (by decide)).2.2.2.1⟩

theorem crockEncode_neg (y : Int) (hy : y < 0) : crockEncode y = "" := by
  unfold crockEncode
  rw [if_neg (by omega)]
  have h0 : y.toNat = 0 := by omega
  rw [h0, show digitsBE 32 two_le_32 0 = [] from by rw [digitsBE]]
  rfl

theorem b58Encode_neg (y : Int) (hy : y < 0) : b58Encode y = "" := by
  unfold b58Encode
  rw [if_neg (by omega)]
  have h0 : y.toNat = 0 := by omega
  rw [h0, show digitsBE 58 two_le_58 0 = [] from by rw [digitsBE]]
  rfl

/-- C9: the crockford and base58 encoders emit the empty string for every
negative int64 (their digit loops run only while the value is positive), so
`ID.Format` in those formats returns `""` whenever the value it encodes —
the identifier after obfuscation — is negative (with no obfuscator that is
every negative identifier; with a key, e.g. one that flips the sign bit, a
previously positive identifier); that output is rejected by the parsers. -/
theorem C9_negative_formats_empty (id : Int) (hneg : id < 0) (cfg : USIDConfig)
    (hobf : obfuscate cfg id < 0) :
    crockEncode id = "" ∧ b58Encode id = "" ∧
    format cfg Format.crockford id = "" ∧ format cfg Format.base58 id = "" ∧
    parseCrockford cfg "" = none ∧ parseBase58 cfg "" = none := by
  refine ⟨crockEncode_neg id hneg, b58Encode_neg id hneg, ?_, ?_, rfl, rfl⟩
  · show crockEncode (obfuscate cfg id) = ""
    exact crockEncode_neg _ hobf
  · show b58Encode (obfuscate cfg id) = ""
    exact b58Encode_neg _ hobf

/-- Witness for C9 at the negative identifier -1 with no obfuscator. -/
theorem C9_witness :
    crockEncode (-1) = "" ∧ format defaultConfig Format.base58 (-1) = "" :=
  ⟨(C9_negative_formats_empty (-1) (by decide) defaultConfig (by decide)).1,
   (C9_negative_formats_empty (-1) (by decide) defaultConfig (by decide)).2.2.2.1⟩

/-- C4 counterexample: with an obfuscator key configured (key 1), the bare
JSON number `5` does not unmarshal to the raw integer 5 — the code applies
`deobfuscate` to it, yielding 4. -/
theorem C4_counterexample :
    unmarshalJSON { defaultConfig with obfuscator := some 1 } "5".data = some 4 ∧
    unmarshalJSON { defaultConfig with obfuscator := some 1 } "5".data ≠ some 5 := by
  constructor
  · decide
  · decide

/-- Reduction of `UnmarshalJSON` on a non-null payload that does not start
with a quote: the bare-number branch. -/
theorem unmarshalJSON_num (cfg : USIDConfig) (c : Char) (rest : List Char)
    (hnull : c :: rest ≠ "null".data) (hq : c ≠ '"') :
    unmarshalJSON cfg (c :: rest) =
      match parseInt10 (c :: rest) with
      | none => none
      | some n => some (deobfuscate cfg n) := by
  unfold unmarshalJSON
  rw [if_neg hnull]
  show (if c ≠ '"' then
      match parseInt10 (c :: rest) with
      | none => none
      | some n => some (deobfuscate cfg n)
    else if (c :: rest).length < 2 ∨ (c :: rest).getLast? ≠ some '"' then none
    else parse cfg (String.mk (((c :: rest).drop 1).dropLast))) = _
  rw [if_pos hq]

/-- Heads of decimal renderings of nonnegative values are digit chars. -/
theorem decEncode_head (n : Int) (h0 : 0 ≤ n) :
    ∃ c rest, (decEncode n).data = c :: rest ∧ isDigit10 c = true := by
  by_cases hz : n = 0
  · subst hz
    exact ⟨'0', [], rfl, rfl⟩
  · unfold decEncode
    rw [if_neg hz, if_neg (by omega)]
    have hnn : 0 < n.toNat := by omega
    obtain ⟨d0, l', hdl⟩ : ∃ d0 l', digitsBE 10 two_le_10 n.toNat = d0 :: l' := by
      cases hds : digitsBE 10 two_le_10 n.toNat with
      | nil => exact absurd hds (digitsBE_ne_nil 10 two_le_10 hnn)
      | cons a b => exact ⟨a, b, rfl⟩
    have hd0 : d0 < 10 := digitsBE_lt 10 two_le_10 n.toNat d0 (by rw [hdl]; simp)
    refine ⟨decAlpha.getD d0 ' ', l'.map fun d => decAlpha.getD d ' ', ?_, ?_⟩
    · show (digitsBE 10 two_le_10 n.toNat).map (fun d => decAlpha.getD d ' ') = _
      rw [hdl, List.map_cons]
    · exact (decAlpha_spec d0 hd0).2.1

/-- C4 amended: `UnmarshalJSON` maps the literal `null` to Nil; a bare JSON
number is parsed as a base-10 integer, bypassing text-format decoding, and
then `deobfuscate` is applied — so the stored ID is the raw integer exactly
when no obfuscator key is configured; a quoted payload is parsed via the
default text format; and every other payload is an error. -/
theorem C4_unmarshalJSON_amended (cfg : USIDConfig) :
    unmarshalJSON cfg "null".data = some 0 ∧
    (∀ n : Int, 0 ≤ n → n < 2 ^ 63 →
      unmarshalJSON cfg (decEncode n).data = some (deobfuscate cfg n)) ∧
    (cfg.obfuscator = none → ∀ n : Int, 0 ≤ n → n < 2 ^ 63 →
      unmarshalJSON cfg (decEncode n).data = some n) ∧
    (∀ s : List Char, unmarshalJSON cfg ('"' :: (s ++ ['"'])) = parse cfg (String.mk s)) ∧
    (∀ l : List Char, l ≠ "null".data → l.head? ≠ some '"' → parseInt10 l = none →
      unmarshalJSON cfg l = none) ∧
    (∀ l : List Char, l.head? = some '"' → l.length < 2 ∨ l.getLast? ≠ some '"' →
      unmarshalJSON cfg l = none) := by
  have hnum : ∀ n : Int, 0 ≤ n → n < 2 ^ 63 →
      unmarshalJSON cfg (decEncode n).data = some (deobfuscate cfg n) := by
    intro n hn0 hn1
    obtain ⟨c, rest, hl, hdig⟩ := decEncode_head n hn0
    have hcq : c ≠ '"' := by
      intro hceq
      subst hceq
      exact absurd hdig (by decide)
    have hcn : c ≠ 'n' := by
      intro hceq
      subst hceq
      exact absurd hdig (by decide)
    have hnull : c :: rest ≠ "null".data := by
      intro hcontra
      exact hcn (by injection hcontra)
    have hp := dec_roundtrip n hn0 hn1
    rw [hl] at hp ⊢
    rw [unmarshalJSON_num cfg c rest hnull hcq, hp]
  refine ⟨rfl, hnum, ?_, ?_, ?_, ?_⟩
  · intro hobf n hn0 hn1
    rw [hnum n hn0 hn1]
    simp [deobfuscate, hobf]
  · intro s
    have hnull : '"' :: (s ++ ['"']) ≠ "null".data := by
      intro hcontra
      have : '"' = 'n' := by injection hcontra
      exact absurd this (by decide)
    unfold unmarshalJSON
    rw [if_neg hnull]
    show (if '"' ≠ '"' then
        match parseInt10 ('"' :: (s ++ ['"'])) with
        | none => none
        | some n => some (deobfuscate cfg n)
      else if ('"' :: (s ++ ['"'])).length < 2 ∨
          ('"' :: (s ++ ['"'])).getLast? ≠ some '"' then none
      else parse cfg (String.mk ((('"' :: (s ++ ['"'])).drop 1).dropLast))) = _
    rw [if_neg (not_not_intro rfl)]
    have hlast : ('"' :: (s ++ ['"'])).getLast? = some '"' := by
      rw [← List.cons_append, List.getLast?_concat]
    have hcond : ¬(('"' :: (s ++ ['"'])).length < 2 ∨
        ('"' :: (s ++ ['"'])).getLast? ≠ some '"') := by
      push_neg
      refine ⟨?_, hlast⟩
      simp
    rw [if_neg hcond]
    have hdrop : (('"' :: (s ++ ['"'])).drop 1).dropLast = s := by
      show (s ++ ['"']).dropLast = s
      exact List.dropLast_concat
    rw [hdrop]
  · intro l hnull hq hp
    match l with
    | [] => rfl
    | c :: rest =>
      have hcq : c ≠ '"' := by
        intro hceq
        subst hceq
        exact hq rfl
      rw [unmarshalJSON_num cfg c rest hnull hcq, hp]
  · intro l hhead hcond
    match l with
    | c :: rest =>
      have hc : c = '"' := by
        injection hhead
      subst hc
      have hnull : ('"' : Char) :: rest ≠ "null".data := by
        intro hcontra
        have : '"' = 'n' := by injection hcontra
        exact absurd this (by decide)
      unfold unmarshalJSON
      rw [if_neg hnull]
      show (if ('"' : Char) ≠ '"' then
          match parseInt10 ('"' :: rest) with
          | none => none
          | some n => some (deobfuscate cfg n)
        else if ('"' :: rest : List Char).length < 2 ∨
            ('"' :: rest : List Char).getLast? ≠ some '"' then none
        else parse cfg (String.mk ((('"' :: rest : List Char).drop 1).dropLast))) = _
      rw [if_neg (not_not_intro rfl), if_pos hcond]

/-- Witness for C4's amended claim: an obfuscated config stores
`deobfuscate 5`, a plain config stores 5 itself. -/
theorem C4_witness :
    unmarshalJSON { defaultConfig with obfuscator := some 1 } (decEncode 5).data =
      some (deobfuscate { defaultConfig with obfuscator := some 1 } 5) ∧
    unmarshalJSON defaultConfig (decEncode 5).data = some 5 :=
  ⟨(C4_unmarshalJSON_amended { defaultConfig with obfuscator := some 1 }).2.1 5
      (by decide) (by decide),
   (C4_unmarshalJSON_amended defaultConfig).2.2.1 rfl 5 (by decide) (by decide)⟩

/-! ### Generator machinery -/

/-- Arithmetic characterisation of one `Generate` iteration under the
shipped layout (`SeqBits = 6`, `NodeBits = 6`), for clock readings inside
the 51-bit timestamp field and state words inside the 57-bit packed range:

* clock ahead of the stored bucket: install `now<<6 | 0`, return
  `now<<12 | node<<6 | 0`;
* sequence exhausted (`oldSeq = 63` and clock not ahead): retry;
* otherwise: install `oldTime<<6 | (oldSeq+1)`, return
  `oldTime<<12 | node<<6 | (oldSeq+1)`. -/
theorem genStep_default (node : Int) (hn0 : 0 ≤ node) (hn1 : node ≤ 63)
    (now : Int) (ht0 : 0 ≤ now) (ht1 : now < 2 ^ 51)
    (w : Nat) (hw : w < 2 ^ 57) :
    genStep defaultConfig ⟨node, 63, 6, 12⟩ now w =
      if ((w / 64 : Nat) : Int) < now then
        some (now.toNat * 64, ((now.toNat * 4096 + node.toNat * 64 : Nat) : Int))
      else if w % 64 = 63 then none
      else some (w / 64 * 64 + (w % 64 + 1),
        ((w / 64 * 4096 + node.toNat * 64 + (w % 64 + 1) : Nat) : Int)) := by
  have hsm : u64ofInt (63 : Int) = 63 := rfl
  have hz : u64ofInt (0 : Int) = 0 := rfl
  have hot : i64ofNat (w >>> 6) = ((w / 64 : Nat) : Int) := by
    rw [Nat.shiftRight_eq_div_pow]
    exact i64ofNat_small (by omega)
  have hos : i64ofNat (w &&& 63) = ((w % 64 : Nat) : Int) := by
    rw [and_63]
    exact i64ofNat_small (by omega)
  simp only [genStep, defaultConfig, hot, hos, hsm, hz, Nat.or_zero]
  by_cases h1 : ((w / 64 : Nat) : Int) < now
  · rw [if_pos h1, if_pos h1]
    have e1 : u64ofInt (now * 2 ^ 6) = now.toNat * 64 := by
      unfold u64ofInt
      omega
    have e2 : u64ofInt (now * 2 ^ 12) = now.toNat * 4096 := by
      unfold u64ofInt
      omega
    have e3 : u64ofInt (node * 2 ^ 6) = node.toNat * 64 := by
      unfold u64ofInt
      omega
    rw [e1, e2, e3]
    have e4 : now.toNat * 4096 ||| node.toNat * 64 = now.toNat * 4096 + node.toNat * 64 :=
      @lor_eq_add 12 (now.toNat * 4096) (node.toNat * 64) ⟨now.toNat, by ring⟩ (by omega)
    rw [e4, i64ofNat_small (by omega)]
  · rw [if_neg h1, if_neg h1]
    by_cases h2 : w % 64 = 63
    · rw [if_pos h2, if_pos (by rw [h2]; norm_num : (63 : Int) < ((w % 64 : Nat) : Int) + 1)]
    · rw [if_neg h2, if_neg (by omega : ¬(63 : Int) < ((w % 64 : Nat) : Int) + 1)]
      have e1 : u64ofInt (((w / 64 : Nat) : Int) * 2 ^ 6) = w / 64 * 64 := by
        unfold u64ofInt
        omega
      have e2 : u64ofInt (((w % 64 : Nat) : Int) + 1) = w % 64 + 1 := by
        unfold u64ofInt
        omega
      have e3 : u64ofInt (((w / 64 : Nat) : Int) * 2 ^ 12) = w / 64 * 4096 := by
        unfold u64ofInt
        omega
      have e4 : u64ofInt (node * 2 ^ 6) = node.toNat * 64 := by
        unfold u64ofInt
        omega
      rw [e1, e2, e3, e4]
      have e5 : w / 64 * 64 ||| (w % 64 + 1) = w / 64 * 64 + (w % 64 + 1) :=
        @lor_eq_add 6 (w / 64 * 64) (w % 64 + 1) ⟨w / 64, by ring⟩ (by omega)
      have e6 : w / 64 * 4096 ||| node.toNat * 64 = w / 64 * 4096 + node.toNat * 64 :=
        @lor_eq_add 12 (w / 64 * 4096) (node.toNat * 64) ⟨w / 64, by ring⟩ (by omega)
      have e7 : w / 64 * 4096 + node.toNat * 64 ||| (w % 64 + 1) =
          w / 64 * 4096 + node.toNat * 64 + (w % 64 + 1) :=
        @lor_eq_add 6 (w / 64 * 4096 + node.toNat * 64) (w % 64 + 1)
          ⟨w / 64 * 64 + node.toNat, by ring⟩ (by omega)
      rw [e5, e6, e7, i64ofNat_small (by omega)]

/-- Field extraction from a packed identifier under the default layout. -/
theorem id_fields (t s nd : Nat) (ht : t < 2 ^ 51) (hs : s < 64) (hnd : nd ≤ 63) :
    Timestamp defaultConfig ((t * 4096 + nd * 64 + s : Nat) : Int) =
      ((t : Nat) : Int) + defaultConfig.epoch ∧
    Seq defaultConfig ((t * 4096 + nd * 64 + s : Nat) : Int) = ((s : Nat) : Int) := by
  constructor
  · unfold Timestamp
    have h12 : defaultConfig.seqBits + defaultConfig.nodeBits = 12 := rfl
    rw [h12, sar64_ofNat]
    have hq : (t * 4096 + nd * 64 + s) / 2 ^ 12 = t := by omega
    rw [hq]
  · unfold Seq
    have h6 : ((2 : Int) ^ defaultConfig.seqBits - 1) = 63 := rfl
    have h1 : u64ofInt ((t * 4096 + nd * 64 + s : Nat) : Int) = t * 4096 + nd * 64 + s := by
      unfold u64ofInt
      omega
    have h2 : u64ofInt (63 : Int) = 63 := rfl
    rw [h6, h1, h2, and_63]
    have h3 : (t * 4096 + nd * 64 + s) % 64 = s := by omega
    rw [h3, i64ofNat_small (by omega)]

/-- Invariant of sequential `Generate` executions from any in-range state
word: the installed state words form a strictly increasing chain, stay
inside the 57-bit packed range, and every returned identifier carries
exactly its installed word's timestamp and sequence fields. -/
theorem genRun_spec (node : Int) (hn0 : 0 ≤ node) (hn1 : node ≤ 63) :
    ∀ (nows : List Int), (∀ t ∈ nows, 0 ≤ t ∧ t < 2 ^ 51) →
      ∀ w : Nat, w < 2 ^ 57 →
        List.Chain' (· < ·)
          (w :: (genRun defaultConfig ⟨node, 63, 6, 12⟩ nows w).map Prod.fst) ∧
        ∀ p ∈ genRun defaultConfig ⟨node, 63, 6, 12⟩ nows w,
          p.1 < 2 ^ 57 ∧
          Timestamp defaultConfig p.2 = ((p.1 / 64 : Nat) : Int) + defaultConfig.epoch ∧
          Seq defaultConfig p.2 = ((p.1 % 64 : Nat) : Int) := by
  intro nows
  induction nows with
  | nil =>
    intro _ w hw
    constructor
    · simp [genRun]
    · intro p hp
      simp [genRun] at hp
  | cons now rest ih =>
    intro hb w hw
    have hnow := hb now (by simp)
    have hrest : ∀ t ∈ rest, 0 ≤ t ∧ t < 2 ^ 51 := fun t ht => hb t (by simp [ht])
    by_cases h1 : ((w / 64 : Nat) : Int) < now
    · have hrun : genRun defaultConfig ⟨node, 63, 6, 12⟩ (now :: rest) w =
          (now.toNat * 64, ((now.toNat * 4096 + node.toNat * 64 : Nat) : Int)) ::
            genRun defaultConfig ⟨node, 63, 6, 12⟩ rest (now.toNat * 64) := by
        rw [genRun, genStep_default node hn0 hn1 now hnow.1 hnow.2 w hw, if_pos h1]
      have hA : now.toNat * 64 < 2 ^ 57 := by
        have := hnow.2
        omega
      have hwA : w < now.toNat * 64 := by omega
      obtain ⟨ihc, ihp⟩ := ih hrest (now.toNat * 64) hA
      rw [hrun]
      constructor
      · rw [List.map_cons, List.chain'_cons]
        exact ⟨hwA, ihc⟩
      · intro p hp
        rcases List.mem_cons.1 hp with hp | hp
        · subst hp
          refine ⟨hA, ?_, ?_⟩
          · have hq : now.toNat * 64 / 64 = now.toNat := by omega
            rw [hq]
            have := (id_fields now.toNat 0 node.toNat (by omega) (by norm_num) (by omega)).1
            simpa using this
          · have hr : now.toNat * 64 % 64 = 0 := by omega
            rw [hr]
            have := (id_fields now.toNat 0 node.toNat (by omega) (by norm_num) (by omega)).2
            simpa using this
        · exact ihp p hp
    · by_cases h2 : w % 64 = 63
      · have hrun : genRun defaultConfig ⟨node, 63, 6, 12⟩ (now :: rest) w =
            genRun defaultConfig ⟨node, 63, 6, 12⟩ rest w := by
          rw [genRun, genStep_default node hn0 hn1 now hnow.1 hnow.2 w hw, if_neg h1,
            if_pos h2]
        rw [hrun]
        exact ih hrest w hw
      · have hrun : genRun defaultConfig ⟨node, 63, 6, 12⟩ (now :: rest) w =
            (w / 64 * 64 + (w % 64 + 1),
              ((w / 64 * 4096 + node.toNat * 64 + (w % 64 + 1) : Nat) : Int)) ::
              genRun defaultConfig ⟨node, 63, 6, 12⟩ rest (w / 64 * 64 + (w % 64 + 1)) := by
          rw [genRun, genStep_default node hn0 hn1 now hnow.1 hnow.2 w hw, if_neg h1,
            if_neg h2]
        have hA : w / 64 * 64 + (w % 64 + 1) < 2 ^ 57 := by omega
        have hwA : w < w / 64 * 64 + (w % 64 + 1) := by omega
        obtain ⟨ihc, ihp⟩ := ih hrest (w / 64 * 64 + (w % 64 + 1)) hA
        rw [hrun]
        constructor
        · rw [List.map_cons, List.chain'_cons]
          exact ⟨hwA, ihc⟩
        · intro p hp
          rcases List.mem_cons.1 hp with hp | hp
          · subst hp
            refine ⟨hA, ?_, ?_⟩
            · have hq : (w / 64 * 64 + (w % 64 + 1)) / 64 = w / 64 := by omega
              rw [hq]
              exact (id_fields (w / 64) (w % 64 + 1) node.toNat (by omega) (by omega)
                (by omega)).1
            · have hr : (w / 64 * 64 + (w % 64 + 1)) % 64 = w % 64 + 1 := by omega
              rw [hr]
              exact (id_fields (w / 64) (w % 64 + 1) node.toNat (by omega) (by omega)
                (by omega)).2
          · exact ihp p hp

/-- Unpacking `NewGenerator` under the default layout: the node id is in
range and the constructed generator carries `seqMask = 63`,
`nodeShift = 6`, `timeShift = 12`. -/
theorem newGenerator_default (node : Int) (g : Generator)
    (hg : NewGenerator defaultConfig node = some g) :
    0 ≤ node ∧ node ≤ 63 ∧ g = ⟨node, 63, 6, 12⟩ := by
  unfold NewGenerator at hg
  by_cases h : node < 0 ∨ (2 : Int) ^ defaultConfig.nodeBits - 1 < node
  · rw [if_pos h] at hg
    exact absurd hg (by simp)
  · rw [if_neg h] at hg
    push_neg at h
    refine ⟨h.1, by simpa [defaultConfig] using h.2, ?_⟩
    have := Option.some.inj hg
    rw [← this]
    rfl

/-- C1: executing a Generator sequentially (each iteration's
compare-and-swap succeeding against the word it read), the packed state
word `(lastTimestamp << seqBits) | lastSeq` strictly increases across
successful steps; consequently any two completed `Generate` calls return
identifiers with distinct `(timestamp, seq)` pairs, and the timestamp
field of successively returned identifiers is non-decreasing. -/
theorem C1_generator_monotonic (node : Int) (g : Generator)
    (hg : NewGenerator defaultConfig node = some g)
    (nows : List Int) (hnows : ∀ t ∈ nows, 0 ≤ t ∧ t < 2 ^ 51) :
    List.Chain' (· < ·) (0 :: (genRun defaultConfig g nows 0).map Prod.fst) ∧
    ((genRun defaultConfig g nows 0).map Prod.snd).Pairwise
      (fun a b => ¬(Timestamp defaultConfig a = Timestamp defaultConfig b ∧
        Seq defaultConfig a = Seq defaultConfig b)) ∧
    List.Chain' (· ≤ ·)
      (((genRun defaultConfig g nows 0).map Prod.snd).map (Timestamp defaultConfig)) := by
  obtain ⟨hn0, hn1, hgeq⟩ := newGenerator_default node g hg
  subst hgeq
  obtain ⟨hc, hp⟩ := genRun_spec node hn0 hn1 nows hnows 0 (by norm_num)
  have htail : List.Chain' (· < ·)
      ((genRun defaultConfig ⟨node, 63, 6, 12⟩ nows 0).map Prod.fst) := hc.tail
  have hwords := (List.chain'_iff_pairwise).1 htail
  have hrunpw : (genRun defaultConfig ⟨node, 63, 6, 12⟩ nows 0).Pairwise
      (fun p q => p.1 < q.1) := List.pairwise_map.1 hwords
  refine ⟨hc, ?_, ?_⟩
  · rw [List.pairwise_map]
    refine hrunpw.imp_of_mem ?_
    intro p q hpmem hqmem hlt hcontra
    obtain ⟨hts, hseq⟩ := hcontra
    obtain ⟨_, htp, hsp⟩ := hp p hpmem
    obtain ⟨_, htq, hsq⟩ := hp q hqmem
    rw [htp, htq] at hts
    rw [hsp, hsq] at hseq
    have h1 : p.1 / 64 = q.1 / 64 := by omega
    have h2 : p.1 % 64 = q.1 % 64 := by omega
    omega
  · have hts : (genRun defaultConfig ⟨node, 63, 6, 12⟩ nows 0).Pairwise
        (fun p q => Timestamp defaultConfig p.2 ≤ Timestamp defaultConfig q.2) := by
      refine hrunpw.imp_of_mem ?_
      intro p q hpmem hqmem hlt
      obtain ⟨_, htp, _⟩ := hp p hpmem
      obtain ⟨_, htq, _⟩ := hp q hqmem
      rw [htp, htq]
      have hdiv : p.1 / 64 ≤ q.1 / 64 := Nat.div_le_div_right (le_of_lt hlt)
      omega
    rw [List.chain'_map, List.chain'_map]
    exact hts.chain'

/-- Witness for C1: three clock samples on node 1 from the zero word. -/
theorem C1_witness :
    List.Chain' (· < ·)
      (0 :: (genRun defaultConfig ⟨1, 63, 6, 12⟩ [0, 0, 1] 0).map Prod.fst) :=
  (C1_generator_monotonic 1 ⟨1, 63, 6, 12⟩ (by decide) [0, 0, 1] (by decide)).1

/-- C3: each `Generate` iteration computes exactly as specified: with
`oldTime = old >> seqBits` and `oldSeq = old & seqMask`, a clock reading
past `oldTime` starts a fresh bucket (`newTime = now`, `seq = 0`); otherwise
`seq = oldSeq + 1`, and if `seq > seqMask` the iteration restarts without
advancing time or emitting; on a successful compare-and-swap the word
becomes `(newTime << seqBits) | seq` and the call returns
`(newTime << timeShift) | (node << nodeShift) | seq`. -/
theorem C3_generate_step (node : Int) (g : Generator)
    (hg : NewGenerator defaultConfig node = some g)
    (now : Int) (ht0 : 0 ≤ now) (ht1 : now < 2 ^ 51)
    (w : Nat) (hw : w < 2 ^ 57) :
    (((w >>> 6 : Nat) : Int) < now →
      genStep defaultConfig g now w =
        some (now.toNat <<< 6 ||| 0,
          ((now.toNat <<< 12 ||| node.toNat <<< 6 ||| 0 : Nat) : Int))) ∧
    (now ≤ ((w >>> 6 : Nat) : Int) → w &&& 63 = 63 →
      genStep defaultConfig g now w = none) ∧
    (now ≤ ((w >>> 6 : Nat) : Int) → (w &&& 63) + 1 ≤ 63 →
      genStep defaultConfig g now w =
        some ((w >>> 6) <<< 6 ||| ((w &&& 63) + 1),
          (((w >>> 6) <<< 12 ||| node.toNat <<< 6 ||| ((w &&& 63) + 1) : Nat) : Int))) := by
  obtain ⟨hn0, hn1, hgeq⟩ := newGenerator_default node g hg
  subst hgeq
  rw [genStep_default node hn0 hn1 now ht0 ht1 w hw]
  simp only [Nat.shiftRight_eq_div_pow, Nat.shiftLeft_eq, and_63, Nat.or_zero]
  refine ⟨?_, ?_, ?_⟩
  · intro h
    rw [if_pos (by exact_mod_cast h)]
    have e1 : now.toNat * 2 ^ 12 ||| node.toNat * 2 ^ 6 =
        now.toNat * 4096 + node.toNat * 64 :=
      @lor_eq_add 12 (now.toNat * 2 ^ 12) (node.toNat * 2 ^ 6) ⟨now.toNat, by ring⟩
        (by omega)
    rw [e1]
  · intro h hseq
    rw [if_neg (by omega), if_pos hseq]
  · intro h hseq
    rw [if_neg (by omega), if_neg (by omega)]
    have e1 : w / 2 ^ 6 * 2 ^ 6 ||| (w % 64 + 1) = w / 64 * 64 + (w % 64 + 1) := by
      norm_num
      exact @lor_eq_add 6 (w / 64 * 64) (w % 64 + 1) ⟨w / 64, by ring⟩ (by omega)
    have e2 : w / 2 ^ 6 * 2 ^ 12 ||| node.toNat * 2 ^ 6 ||| (w % 64 + 1) =
        w / 64 * 4096 + node.toNat * 64 + (w % 64 + 1) := by
      have i1 : w / 2 ^ 6 * 2 ^ 12 ||| node.toNat * 2 ^ 6 =
          w / 64 * 4096 + node.toNat * 64 := by
        have := @lor_eq_add 12 (w / 2 ^ 6 * 2 ^ 12) (node.toNat * 2 ^ 6)
          ⟨w / 2 ^ 6, by ring⟩ (by omega)
        rw [this]
        norm_num
      rw [i1]
      exact @lor_eq_add 6 (w / 64 * 4096 + node.toNat * 64) (w % 64 + 1)
        ⟨w / 64 * 64 + node.toNat, by ring⟩ (by omega)
    rw [e1, e2]

/-- Witness for C3: node 1, clock reading 5, zero state word. -/
theorem C3_witness :
    genStep defaultConfig ⟨1, 63, 6, 12⟩ 5 0 =
      some ((5 : Int).toNat <<< 6 ||| 0,
        (((5 : Int).toNat <<< 12 ||| (1 : Int).toNat <<< 6 ||| 0 : Nat) : Int)) :=
  (C3_generate_step 1 ⟨1, 63, 6, 12⟩ (by decide) 5 (by decide) (by decide) 0
    (by decide)).1 (by decide)

/-- C6: For every identifier and every obfuscator configuration, `Bytes`,
`Int64`, `Timestamp`, `Node` and `Seq` return exactly what they return with
no obfuscator configured: the accessors operate on the true,
non-obfuscated bits. -/
theorem C6_accessors_ignore_obfuscator (cfg : USIDConfig) (id : Int) :
    idBytesM cfg id = idBytesM { cfg with obfuscator := none } id ∧
    idInt64 cfg id = idInt64 { cfg with obfuscator := none } id ∧
    Timestamp cfg id = Timestamp { cfg with obfuscator := none } id ∧
    Node cfg id = Node { cfg with obfuscator := none } id ∧
    Seq cfg id = Seq { cfg with obfuscator := none } id :=
  ⟨rfl, rfl, rfl, rfl, rfl⟩

/-- C8: every format's parse function, and `Parse` under every default
format, rejects the empty string with an error (never a silent zero). -/
theorem C8_empty_string_rejected (cfg : USIDConfig) :
    parseCrockford cfg "" = none ∧ parseBase58 cfg "" = none ∧
    parseBase64 cfg "" = none ∧ parseHash cfg "" = none ∧
    parseDecimal cfg "" = none ∧ parse cfg "" = none := by
  refine ⟨rfl, rfl, rfl, rfl, rfl, ?_⟩
  cases hf : cfg.defaultFormat <;> simp [parse, hf] <;> rfl

/-- C10: whenever `NullID.Scan` fails (any source `ID.Scan` rejects), the
receiver's `Valid` field has nevertheless been set to `true`; the receiver
is mutated even though the operation errors. -/
theorem C10_nullScan_sets_valid_on_error (cfg : USIDConfig) (n : NullID)
    (src : SqlSrc) (h : (nullScan cfg n src).2 = false) :
    (nullScan cfg n src).1.valid = true ∧
    (n.valid = false → (nullScan cfg n src).1 ≠ n) := by
  have he : nullScan cfg n src =
      (match idScan cfg src with
       | some v => (⟨v, true⟩, true)
       | none => (⟨n.id, true⟩, false)) := by
    cases src with
    | null => simp [nullScan] at h
    | id m => rfl
    | i64 m => rfl
    | bytes l => rfl
    | str l => rfl
    | other t => rfl
  rw [he] at h ⊢
  cases hscan : idScan cfg src with
  | none =>
    refine ⟨rfl, fun hv hcontra => ?_⟩
    have := congrArg NullID.valid hcontra
    simp [hv] at this
  | some v =>
    rw [hscan] at h
    exact Bool.noConfusion h

/-- Witness for C10 at a concrete unsupported source type. -/
theorem C10_witness :
    (nullScan defaultConfig ⟨0, false⟩ (SqlSrc.other "bool")).2 = false ∧
    (nullScan defaultConfig ⟨0, false⟩ (SqlSrc.other "bool")).1.valid = true ∧
    (nullScan defaultConfig ⟨0, false⟩ (SqlSrc.other "bool")).1 ≠ ⟨0, false⟩ :=
  ⟨rfl,
   (C10_nullScan_sets_valid_on_error defaultConfig ⟨0, false⟩ (SqlSrc.other "bool") rfl).1,
   (C10_nullScan_sets_valid_on_error defaultConfig ⟨0, false⟩ (SqlSrc.other "bool") rfl).2 rfl⟩

/-- C5: obfuscation is an involution for every int64 key; a nonzero key
never fixes any identifier (in particular not a nonzero one); and with no
key configured both directions are the identity. -/
theorem C5_obfuscation_involution (k x : Int)
    (hk0 : -(2 ^ 63) ≤ k) (hk1 : k < 2 ^ 63)
    (hx0 : -(2 ^ 63) ≤ x) (hx1 : x < 2 ^ 63) :
    Deobfuscate k (Obfuscate k x) = x ∧
    (k ≠ 0 → x ≠ 0 → Obfuscate k x ≠ x) ∧
    ∀ cfg : USIDConfig, cfg.obfuscator = none →
      obfuscate cfg x = x ∧ deobfuscate cfg x = x := by
  have hxu := u64ofInt_lt x
  have hku := u64ofInt_lt k
  have hxor : u64ofInt x ^^^ u64ofInt k < 2 ^ 64 := Nat.xor_lt_two_pow hxu hku
  refine ⟨?_, ?_, ?_⟩
  · show i64ofNat (u64ofInt (i64ofNat (u64ofInt x ^^^ u64ofInt k)) ^^^ u64ofInt k) = x
    rw [u64ofInt_i64ofNat hxor, Nat.xor_assoc, Nat.xor_self, Nat.xor_zero,
      i64ofNat_u64ofInt hx0 hx1]
  · intro hk _ hcontra
    have h1 : u64ofInt (i64ofNat (u64ofInt x ^^^ u64ofInt k)) = u64ofInt x :=
      congrArg u64ofInt hcontra
    rw [u64ofInt_i64ofNat hxor] at h1
    have h2 : u64ofInt x ^^^ (u64ofInt x ^^^ u64ofInt k) = u64ofInt x ^^^ u64ofInt x := by
      rw [h1]
    rw [← Nat.xor_assoc, Nat.xor_self, Nat.zero_xor] at h2
    have h3 : u64ofInt k = 0 := by omega
    have : k = 0 := by
      unfold u64ofInt at h3
      omega
    exact hk this
  · intro cfg hc
    constructor <;> simp [obfuscate, deobfuscate, hc]

/-- C7: for every int64 identifier (negative values and sentinels included)
`Bytes` yields exactly 8 big-endian bytes and `FromBytes` inverts it;
`FromBytes` errors exactly on inputs whose length differs from 8. -/
theorem C7_bytes_roundtrip (id : Int) (h0 : -(2 ^ 63) ≤ id) (h1 : id < 2 ^ 63) :
    (idBytes id).length = 8 ∧
    fromBytes (idBytes id) = some id ∧
    ∀ l : List Nat, fromBytes l = none ↔ l.length ≠ 8 := by
  refine ⟨rfl, fromBytes_idBytes id h0 h1, fun l => ?_⟩
  by_cases h : l.length = 8 <;> simp [fromBytes, h]

/-- Witness for C7 at the negative identifier -1. -/
theorem C7_witness :
    (idBytes (-1)).length = 8 ∧ fromBytes (idBytes (-1)) = some (-1) :=
  ⟨(C7_bytes_roundtrip (-1) (by decide) (by decide)).1,
   (C7_bytes_roundtrip (-1) (by decide) (by decide)).2.1⟩

/-- Witness for C5 at key 1, identifier 5. -/
theorem C5_witness :
    Deobfuscate 1 (Obfuscate 1 5) = 5 ∧ Obfuscate 1 5 ≠ 5 :=
  ⟨(C5_obfuscation_involution 1 5 (by decide) (by decide) (by decide) (by decide)).1,
   (C5_obfuscation_involution 1 5 (by decide) (by decide) (by decide) (by decide)).2.1
     (by decide) (by decide)⟩

end USID
